import Mathlib

/-!
Verification of the time-series merge engine of a GitHub traffic tracker
(source: scan_multiple_github_repo_traffic.py).

Shallow embedding conventions:

* A calendar day is modelled as a day number (Nat).  The Python code renders a
  date with str(datetime) and parses it back with datetime.fromisoformat, an
  injective rendering with an inverse parser that fails on malformed text; this
  pair is modelled by Nat.repr / String.toNat?.
* A Python dict (insertion ordered) is modelled as an association list: update
  of an existing key keeps its position, a new key is appended at the end.
  Iteration over a dict iterates the list in order.
* A CSV line is modelled as its list of comma-separated fields (the program
  writes fields that contain no comma and no stray whitespace, so the
  join/split on a comma is the identity on this representation).
* A Python cell value is either an int (traffic counts are non-negative) or a
  string (read_table yields strings; the gap filler writes the string "NA").
* Fallible code (KeyError, IndexError, ValueError, parse failures, remote API
  failures) returns Option / Except.
-/

/-- A table-cell value: a Python int (counts are non-negative) or a Python
string (read_table produces strings; the gap filler stores the string "NA"). -/
inductive Value where
  | int (n : Nat)
  | str (s : String)
deriving DecidableEq, Repr

/-- How Python prints a value (str of an int is its decimal digits, str of a
string is the string itself). -/
def Value.render : Value → String
  | .int n => Nat.repr n
  | .str s => s

/-- The sentinel stored by the gap filler for a repository with no history on a
pre-existing date: in the source it is the Python string "NA". -/
def NAval : Value := .str "NA"

/-- One date's row: repo name -> value, insertion ordered (a Python dict). -/
abbrev Row := List (String × Value)

/-- A metric table: date -> row, insertion ordered (a Python dict). -/
abbrev Table := List (Nat × Row)

/-- Python dict read d[k]: first binding of the key, none when absent. -/
def dictLookup {α β : Type} [DecidableEq α] : List (α × β) → α → Option β
  | [], _ => none
  | (k, v) :: t, a => if k = a then some v else dictLookup t a

/-- Python dict write d[k] = v: update in place keeping the key position, or
append a fresh binding at the end. -/
def dictInsert {α β : Type} [DecidableEq α] : List (α × β) → α → β → List (α × β)
  | [], a, b => [(a, b)]
  | (k, v) :: t, a, b => if k = a then (k, b) :: t else (k, v) :: dictInsert t a b

/-- The key list of a dict, in insertion order. -/
def dictKeys {α β : Type} (l : List (α × β)) : List α := l.map Prod.fst

/-- Python == on rows: same keys with the same values (order-insensitive). -/
def rowDictEq (r₁ r₂ : Row) : Prop := ∀ k, dictLookup r₁ k = dictLookup r₂ k

/-- Python == on tables: the same date keys, and pointwise ==-equal rows. -/
def tableDictEq (t₁ t₂ : Table) : Prop :=
  (∀ d, (dictLookup t₁ d).isSome = (dictLookup t₂ d).isSome) ∧
  (∀ d r₁ r₂, dictLookup t₁ d = some r₁ → dictLookup t₂ d = some r₂ → rowDictEq r₁ r₂)

/-! ## The codec (write_table / read_table) -/

/-- The first CSV field of a row: Python str(datetime), modelled as the decimal
rendering of the day number. -/
def dateToStr (d : Nat) : String := Nat.repr d

/-- Parsing the date field: datetime.fromisoformat inverts the rendering and
fails (ValueError) on malformed text.  This is the algorithm of String.toNat?,
written structurally over the character list (parseDate_eq_toNat? below proves
the two agree). -/
def parseDate (s : String) : Option Nat :=
  if !s.data.isEmpty && s.data.all Char.isDigit then
    some (s.data.foldl (fun n c => n * 10 + (c.toNat - '0'.toNat)) 0)
  else none

/-- The values of one printed row, in repo_list order; none models the KeyError
raised by data[d][r] when the row lacks a repository of repo_list. -/
def lookupAll (row : Row) : List String → Option (List Value)
  | [] => some []
  | r :: rs =>
    match dictLookup row r, lookupAll row rs with
    | some v, some vs => some (v :: vs)
    | _, _ => none

/-- One printed data line of write_table: the date field followed by the values
positionally matched to repo_list. -/
def renderRow (repo_list : List String) (p : Nat × Row) : Option (List String) :=
  (lookupAll p.2 repo_list).map fun vs => dateToStr p.1 :: vs.map Value.render

/-- All data lines of write_table, one per date key, in the dict's order. -/
def renderRows (repo_list : List String) : Table → Option (List (List String))
  | [] => some []
  | p :: ps =>
    match renderRow repo_list p, renderRows repo_list ps with
    | some l, some ls => some (l :: ls)
    | _, _ => none

/-- write_table: the header line "date,repo1,..." then one line per date key of
the dict, iterated in insertion order; none models an uncaught KeyError. -/
def write_table (data : Table) (repo_list : List String) : Option (List (List String)) :=
  (renderRows repo_list data).map fun ls => ("date" :: repo_list) :: ls

/-- The two uncaught exceptions read_table can raise: ValueError from
datetime.fromisoformat (malformed date field) and IndexError from
repo_list[i] (a data row with more fields than the header). -/
inductive ReadErr where
  | parseError
  | indexError
deriving DecidableEq, Repr

/-- The inner loop of read_table: for i, count in enumerate(sl[1:]):
data[date][repo_list[i]] = count.  An index beyond repo_list raises. -/
def readFields (repo_list : List String) : Nat → Row → List String → Except ReadErr Row
  | _, row, [] => .ok row
  | i, row, c :: cs =>
    match repo_list.get? i with
    | none => .error .indexError
    | some r => readFields repo_list (i + 1) (dictInsert row r (Value.str c)) cs

/-- One data line of read_table: parse the date field, then bind the remaining
fields positionally; all values are kept as strings.  The [] case is
unreachable for real lines (a Python split always yields at least one field,
and sl[0] of the empty field fails the date parse). -/
def readRow (repo_list : List String) (fields : List String) : Except ReadErr (Nat × Row) :=
  match fields with
  | [] => .error .parseError
  | d :: vals =>
    match parseDate d with
    | none => .error .parseError
    | some n =>
      match readFields repo_list 0 [] vals with
      | .error e => .error e
      | .ok row => .ok (n, row)

/-- The line loop of read_table, accumulating data[date] = row. -/
def readRows (repo_list : List String) (t : Table) : List (List String) → Except ReadErr Table
  | [] => .ok t
  | f :: fs =>
    match readRow repo_list f with
    | .error e => .error e
    | .ok (d, row) => readRows repo_list (dictInsert t d row) fs

/-- read_table: the first line is the header, its fields after "date" are the
repo list; every further line becomes one dict entry. -/
def read_table : List (List String) → Except ReadErr Table
  | [] => .ok []
  | header :: rest => readRows (header.drop 1) [] rest

/-- The row read_table builds from the value fields of one data line: the
fields are bound positionally to the header's repositories, so a line with
fewer fields than the header binds only the first repositories (zip truncates
to the shorter list). -/
def rowOfFields (repo_list : List String) (vals : List String) : Row :=
  (repo_list.zip vals).foldl (fun acc q => dictInsert acc q.1 (Value.str q.2)) []

/-! ## The gap filler (complement_data_structure) -/

/-- min(min_date, *data.keys()): fold of Nat.min over the date keys (equals
min_date when the dict is empty, matching the guarded Python call). -/
def extMin (min_date : Nat) (data : Table) : Nat :=
  data.foldl (fun m p => Nat.min m p.1) min_date

/-- max(max_date, *data.keys()). -/
def extMax (max_date : Nat) (data : Table) : Nat :=
  data.foldl (fun m p => Nat.max m p.1) max_date

/-- The dict comprehension \x7b r : 0 for r in repo_list \x7d. -/
def zeroRow (repo_list : List String) : Row :=
  repo_list.foldl (fun row r => dictInsert row r (Value.int 0)) []

/-- The inner NA loop on one row: for r in repo_list: if not r in data[k]:
data[k][r] = "NA". -/
def addNA (repo_list : List String) (row : Row) : Row :=
  repo_list.foldl (fun row r => if (dictLookup row r).isSome then row else row ++ [(r, NAval)]) row

/-- One iteration of the while loop: if the date is absent, append a fresh row
with every repository at 0. -/
def dateStep (repo_list : List String) (t : Table) (current : Nat) : Table :=
  if (dictLookup t current).isSome then t else t ++ [(current, zeroRow repo_list)]

/-- The while loop of complement_data_structure: current runs over the
inclusive range from min_date to max_date, one day at a time. -/
def dateLoop (repo_list : List String) (min_date max_date : Nat) (t : Table) : Table :=
  (List.range' min_date (max_date + 1 - min_date)).foldl (dateStep repo_list) t

/-- complement_data_structure from the source: when the dict is non-empty the
range is extended to cover its keys and missing repositories get "NA"; then
every missing date of the range is appended with an all-zero row. -/
def complement_data_structure (min_date max_date : Nat) (repo_list : List String)
    (data : Table) : Table :=
  if 0 < data.length then
    dateLoop repo_list (extMin min_date data) (extMax max_date data)
      (data.map fun p => (p.1, addNA repo_list p.2))
  else
    dateLoop repo_list min_date max_date data

/-! ## The merge loop (module level, lines 219-224) -/

/-- One assignment data[k][date][repo] = value; none models the KeyError when
the date row is absent. -/
def setCell (t : Table) (d : Nat) (r : String) (v : Value) : Option Table :=
  match dictLookup t d with
  | none => none
  | some row => some (dictInsert t d (dictInsert row r v))

/-- A cell read data[d][r]. -/
def cell (t : Table) (d : Nat) (r : String) : Option Value :=
  (dictLookup t d).bind fun row => dictLookup row r

/-- The inner merge loop for one repository's fetched dates. -/
def mergeRepo (r : String) (t : Table) : List (Nat × Value) → Option Table
  | [] => some t
  | (d, v) :: rest =>
    match setCell t d r v with
    | none => none
    | some t' => mergeRepo r t' rest

/-- The merge loop for one metric: for repo in raw_data: for date, value in
raw_data[repo][k].items(): data[k][date][repo] = value. -/
def mergeFetched (t : Table) : List (String × List (Nat × Value)) → Option Table
  | [] => some t
  | (r, dvs) :: rest =>
    match mergeRepo r t dvs with
    | none => none
    | some t' => mergeFetched t' rest

/-- Fetched dates of a repository dict looked up at one (repo, date) cell. -/
def fetchedAt (raw : List (String × List (Nat × Value))) (r : String) (d : Nat) : Option Value :=
  (dictLookup raw r).bind fun dvs => dictLookup dvs d

/-! ## get_metrics and the orchestrator's range computation -/

/-- One element of views.views / clones.clones from the remote API. -/
structure TrafficItem where
  timestamp : Nat
  count : Nat
  uniques : Nat
deriving DecidableEq, Repr

/-- The four per-date mappings built by get_metrics. -/
structure Metrics where
  view_count : List (Nat × Nat)
  view_unique : List (Nat × Nat)
  clone_count : List (Nat × Nat)
  clone_unique : List (Nat × Nat)
deriving DecidableEq, Repr

/-- The dictionary get_metrics initializes before the try block. -/
def emptyMetrics : Metrics := ⟨[], [], [], []⟩

/-- The views loop of get_metrics. -/
def fillViews (m : Metrics) (vs : List TrafficItem) : Metrics :=
  vs.foldl (fun m v =>
    { m with view_count := dictInsert m.view_count v.timestamp v.count,
             view_unique := dictInsert m.view_unique v.timestamp v.uniques }) m

/-- The clones loop of get_metrics. -/
def fillClones (m : Metrics) (cs : List TrafficItem) : Metrics :=
  cs.foldl (fun m c =>
    { m with clone_count := dictInsert m.clone_count c.timestamp c.count,
             clone_unique := dictInsert m.clone_unique c.timestamp c.uniques }) m

/-- get_metrics with the three remote calls it performs passed in as their
results: github_object.get_repo runs before the try block, so its failure is
raised regardless of raise_error; inside the try block the views call runs
first and the clones call second, and on failure the except clause either
re-raises (strict) or returns whatever data was filled so far (best effort). -/
def get_metrics (repoRes : Except String Unit)
    (viewsRes clonesRes : Except String (List TrafficItem))
    (raise_error : Bool) : Except String Metrics :=
  match repoRes with
  | .error e => .error e
  | .ok _ =>
    match viewsRes with
    | .error e => if raise_error then .error e else .ok emptyMetrics
    | .ok vs =>
      let m := fillViews emptyMetrics vs
      match clonesRes with
      | .error e => if raise_error then .error e else .ok m
      | .ok cs => .ok (fillClones m cs)

/-- The dates of one fetched Metrics value, as collected into all_dates. -/
def metricsDates (m : Metrics) : List Nat :=
  (m.view_count ++ m.view_unique ++ m.clone_count ++ m.clone_unique).map Prod.fst

/-- all_dates: the union of the dates of every metric of every repository. -/
def allDates (raw : List (String × Metrics)) : List Nat :=
  (raw.map fun p => metricsDates p.2).flatten

/-- Errors of the module-level run: the ValueError of min()/max() on an empty
sequence, and the KeyError of the merge loop. -/
inductive OrchErr where
  | valueError
  | keyError
deriving DecidableEq, Repr

/-- min_date, max_date = min(all_dates), max(all_dates): raises ValueError on
an empty sequence. -/
def computeRange (raw : List (String × Metrics)) : Except OrchErr (Nat × Nat) :=
  match allDates raw with
  | [] => .error .valueError
  | d :: ds => .ok (ds.foldl Nat.min d, ds.foldl Nat.max d)

/-- One metric selected out of raw_data as (repo, per-date values) pairs;
the merge loop assigns the fetched Python ints. -/
def selectMetric (sel : Metrics → List (Nat × Nat)) (raw : List (String × Metrics)) :
    List (String × List (Nat × Value)) :=
  raw.map fun p => (p.1, (sel p.2).map fun q => (q.1, Value.int q.2))

/-- Gap-fill one existing table against the global range, then overwrite with
the freshly fetched values of one metric. -/
def mergeOne (min_date max_date : Nat) (repo_list : List String) (pre : Table)
    (fetched : List (String × List (Nat × Value))) : Except OrchErr Table :=
  match mergeFetched (complement_data_structure min_date max_date repo_list pre) fetched with
  | none => .error .keyError
  | some t => .ok t

/-- The module-level pipeline between fetching and writing: compute the global
range from all fetched dates (ValueError when every fetch came back empty,
aborting before any table is produced), then gap-fill and merge each of the
four tables. -/
def orchestrate (pre_vc pre_vu pre_cc pre_cu : Table) (repo_list : List String)
    (raw : List (String × Metrics)) : Except OrchErr (Table × Table × Table × Table) := do
  let (min_date, max_date) ← computeRange raw
  let t1 ← mergeOne min_date max_date repo_list pre_vc (selectMetric Metrics.view_count raw)
  let t2 ← mergeOne min_date max_date repo_list pre_vu (selectMetric Metrics.view_unique raw)
  let t3 ← mergeOne min_date max_date repo_list pre_cc (selectMetric Metrics.clone_count raw)
  let t4 ← mergeOne min_date max_date repo_list pre_cu (selectMetric Metrics.clone_unique raw)
  return (t1, t2, t3, t4)

/-! ## The referrers snapshot append (module level, lines 189-200 and 242-269) -/

/-- One referrer entry dict as built in get_referrers_and_paths. -/
structure RefEntry where
  referrer : String
  count : Nat
  uniques : Nat
deriving DecidableEq, Repr

/-- One appended snapshot: \x7b timestamp, data \x7d with data the
referrers_data dict (repo -> fetched entry list). -/
structure Snapshot where
  timestamp : Nat
  data : List (String × List RefEntry)
deriving DecidableEq, Repr

/-- The fetch loop's referrers_data dict: for every repository of repo_list,
when a referrers or paths file was requested, referrers_data[r] is assigned the
fetched entry list (possibly empty: get_referrers_and_paths returns an empty
list on a best-effort failure). -/
def buildReferrersData (refRequested pathsRequested : Bool) (repo_list : List String)
    (fetchRef : String → List RefEntry) : List (String × List RefEntry) :=
  repo_list.foldl
    (fun d r => if refRequested || pathsRequested then dictInsert d r (fetchRef r) else d) []

/-- The referrers write block: if referrers_file and referrers_data: append one
snapshot \x7b timestamp: now, data: referrers_data \x7d to the loaded log (the
log read from an absent or corrupt file is the empty list) and rewrite it. -/
def appendReferrersSnapshot (refRequested pathsRequested : Bool) (repo_list : List String)
    (fetchRef : String → List RefEntry) (existingLog : List Snapshot) (now : Nat) :
    List Snapshot :=
  let rdata := buildReferrersData refRequested pathsRequested repo_list fetchRef
  if refRequested && !rdata.isEmpty then existingLog ++ [⟨now, rdata⟩] else existingLog

/-! ## A heap model for the in-place update claim

pre_data[k] is a dict object; complement_data_structure mutates it through the
data argument and returns the same object.  The heap is modelled as a list of
Table objects and a reference as an index into it; every Python statement that
writes through the reference becomes a List.set at that index. -/

/-- The heap of dict objects. -/
abbrev Store := List Table

/-- One mutation of the NA loop, acting on the table at entry i: the row of the
i-th date key gains "NA" for every repository absent from it.  Iterating the
dict's keys k and mutating data[k] is iterating the entries in order. -/
def naStep (repo_list : List String) (t : Table) (i : Nat) : Table :=
  match t.get? i with
  | some p => t.set i (p.1, addNA repo_list p.2)
  | none => t

/-- The NA loop of complement_data_structure, writing through the reference:
each iteration reads the dict object and stores the updated object back. -/
def naLoopImpl (repo_list : List String) (ref : Nat) (store : Store) : Store :=
  (List.range (store.getD ref []).length).foldl
    (fun st i => st.set ref (naStep repo_list (st.getD ref []) i)) store

/-- The while loop of complement_data_structure, writing through the
reference. -/
def dateLoopImpl (repo_list : List String) (min_date max_date : Nat) (ref : Nat)
    (store : Store) : Store :=
  (List.range' min_date (max_date + 1 - min_date)).foldl
    (fun st c => st.set ref (dateStep repo_list (st.getD ref []) c)) store

/-- complement_data_structure acting on the heap: the data argument is the
reference ref; the function mutates the referenced dict in place and returns
the same reference. -/
def complementImpl (min_date max_date : Nat) (repo_list : List String) (ref : Nat)
    (store : Store) : Store × Nat :=
  let data := store.getD ref []
  if 0 < data.length then
    (dateLoopImpl repo_list (extMin min_date data) (extMax max_date data) ref
      (naLoopImpl repo_list ref store), ref)
  else
    (dateLoopImpl repo_list min_date max_date ref store, ref)

/-! ## Lemmas: the date codec -/

/-- parseDate is exactly String.toNat? (the model's parser is faithful). -/
theorem parseDate_eq_toNat? (s : String) : parseDate s = s.toNat? := by
  have h : s.isEmpty = s.data.isEmpty := by
    by_cases hs : s = ""
    · subst hs; rfl
    · have h1 : s.isEmpty = false := by
        rw [Bool.eq_false_iff]
        simpa [String.isEmpty_iff] using hs
      have h2 : s.data.isEmpty = false := by
        cases s with
        | mk d =>
          cases d with
          | nil => exact absurd rfl hs
          | cons a l => rfl
      rw [h1, h2]
  rw [String.toNat?, parseDate, String.isNat, String.foldl_eq, String.all_eq, h]

theorem digitChar_toNat {m : Nat} (h : m < 10) : (Nat.digitChar m).toNat = 48 + m := by
  interval_cases m <;> rfl

theorem digitChar_isDigit {m : Nat} (h : m < 10) : (Nat.digitChar m).isDigit = true := by
  interval_cases m <;> decide

theorem toDigitsCore_spec :
    ∀ (n fuel : Nat) (ds : List Char), n < fuel →
    ∃ digs, Nat.toDigitsCore 10 fuel n ds = digs ++ ds ∧ digs ≠ [] ∧
      (∀ c ∈ digs, c.isDigit = true) ∧
      (∀ a, List.foldl (fun m c => m * 10 + (c.toNat - '0'.toNat)) a digs
        = a * 10 ^ digs.length + n) := by
  intro n
  induction n using Nat.strong_induction_on with
  | _ n ih =>
    intro fuel ds hfuel
    match fuel with
    | 0 => omega
    | f + 1 =>
      rw [Nat.toDigitsCore]
      by_cases h0 : n / 10 = 0
      · have hn : n < 10 := by omega
        refine ⟨[Nat.digitChar (n % 10)], by simp [h0], by simp, ?_, ?_⟩
        · intro c hc
          rw [List.mem_singleton] at hc
          subst hc
          exact digitChar_isDigit (Nat.mod_lt _ (by omega))
        · intro a
          rw [List.foldl_cons, List.foldl_nil, digitChar_toNat (Nat.mod_lt _ (by omega)),
            List.length_singleton, pow_one, show ('0').toNat = 48 from rfl]
          omega
      · have hq : n / 10 < n := Nat.div_lt_self (by omega) (by omega)
        obtain ⟨digs, heq, hne, hdig, hval⟩ :=
          ih (n / 10) hq f (Nat.digitChar (n % 10) :: ds) (by omega)
        refine ⟨digs ++ [Nat.digitChar (n % 10)], ?_, by simp, ?_, ?_⟩
        · simp [h0, heq]
        · intro c hc
          rcases List.mem_append.1 hc with h | h
          · exact hdig c h
          · rw [List.mem_singleton] at h
            subst h
            exact digitChar_isDigit (Nat.mod_lt _ (by omega))
        · intro a
          rw [List.foldl_append, hval a, List.foldl_cons, List.foldl_nil,
            digitChar_toNat (Nat.mod_lt _ (by omega))]
          have hdm : 10 * (n / 10) + n % 10 = n := Nat.div_add_mod n 10
          have hc : ('0').toNat = 48 := rfl
          rw [hc, List.length_append, List.length_singleton, pow_succ, ← hdm]
          ring_nf
          omega

/-- Printing a day number and parsing it back round-trips (the model of
str(datetime) / datetime.fromisoformat being mutually inverse). -/
theorem parseDate_repr (n : Nat) : parseDate (Nat.repr n) = some n := by
  obtain ⟨digs, heq, hne, hdig, hval⟩ := toDigitsCore_spec n (n + 1) [] (by omega)
  have hdata : (Nat.repr n).data = digs := by
    rw [Nat.repr, Nat.toDigits, heq, List.append_nil]
    rfl
  rw [parseDate, hdata]
  have h1 : digs.isEmpty = false := by
    cases digs with
    | nil => exact absurd rfl hne
    | cons a l => rfl
  have h2 : digs.all Char.isDigit = true := List.all_eq_true.2 hdig
  rw [h1, h2]
  simpa using hval 0

/-! ## Lemmas: dict operations -/

theorem dictLookup_isSome_iff {α β : Type} [DecidableEq α] (l : List (α × β)) (a : α) :
    (dictLookup l a).isSome = true ↔ a ∈ l.map Prod.fst := by
  induction l with
  | nil => simp [dictLookup]
  | cons p t ih =>
    obtain ⟨k, v⟩ := p
    by_cases h : k = a
    · subst h
      simp [dictLookup]
    · simp [dictLookup, h, ih, Ne.symm h]

theorem dictLookup_eq_none_iff {α β : Type} [DecidableEq α] (l : List (α × β)) (a : α) :
    dictLookup l a = none ↔ a ∉ l.map Prod.fst := by
  rw [← dictLookup_isSome_iff]
  cases dictLookup l a <;> simp

theorem dictLookup_insert_self {α β : Type} [DecidableEq α] (l : List (α × β)) (a : α) (b : β) :
    dictLookup (dictInsert l a b) a = some b := by
  induction l with
  | nil => simp [dictInsert, dictLookup]
  | cons p t ih =>
    obtain ⟨k, v⟩ := p
    by_cases h : k = a
    · subst h
      simp [dictInsert, dictLookup]
    · simp [dictInsert, dictLookup, h, ih]

theorem dictLookup_insert_ne {α β : Type} [DecidableEq α] (l : List (α × β)) (a : α) (b : β)
    (x : α) (h : x ≠ a) : dictLookup (dictInsert l a b) x = dictLookup l x := by
  induction l with
  | nil => simp [dictInsert, dictLookup, Ne.symm h]
  | cons p t ih =>
    obtain ⟨k, v⟩ := p
    by_cases hk : k = a
    · subst hk
      simp [dictInsert, dictLookup, Ne.symm h]
    · by_cases hx : k = x
      · subst hx
        simp [dictInsert, dictLookup, hk]
      · simp [dictInsert, dictLookup, hk, hx, ih]

theorem dictKeys_insert {α β : Type} [DecidableEq α] (l : List (α × β)) (a : α) (b : β) :
    (dictInsert l a b).map Prod.fst =
      if a ∈ l.map Prod.fst then l.map Prod.fst else l.map Prod.fst ++ [a] := by
  induction l with
  | nil => simp [dictInsert]
  | cons p t ih =>
    obtain ⟨k, v⟩ := p
    by_cases h : k = a
    · subst h
      simp [dictInsert]
    · by_cases hm : a ∈ t.map Prod.fst <;> simp [dictInsert, h, ih, hm, Ne.symm h]

theorem dictInsert_nodup {α β : Type} [DecidableEq α] (l : List (α × β)) (a : α) (b : β)
    (h : (l.map Prod.fst).Nodup) : ((dictInsert l a b).map Prod.fst).Nodup := by
  rw [dictKeys_insert]
  by_cases hm : a ∈ l.map Prod.fst
  · simpa [hm] using h
  · simp only [hm, if_false]
    rw [List.nodup_append]
    refine ⟨h, List.nodup_singleton a, ?_⟩
    intro x hx hxa
    rw [List.mem_singleton] at hxa
    subst hxa
    exact hm hx

theorem dictLookup_append {α β : Type} [DecidableEq α] (l₁ l₂ : List (α × β)) (a : α) :
    dictLookup (l₁ ++ l₂) a =
      match dictLookup l₁ a with
      | some v => some v
      | none => dictLookup l₂ a := by
  induction l₁ with
  | nil => simp [dictLookup]
  | cons p t ih =>
    obtain ⟨k, v⟩ := p
    by_cases h : k = a <;> simp [dictLookup, h, ih]

theorem dictLookup_map_value {α β γ : Type} [DecidableEq α] (l : List (α × β)) (g : β → γ)
    (a : α) : dictLookup (l.map fun p => (p.1, g p.2)) a = (dictLookup l a).map g := by
  induction l with
  | nil => simp [dictLookup]
  | cons p t ih =>
    obtain ⟨k, v⟩ := p
    by_cases h : k = a <;> simp [dictLookup, h, ih]

/-- Lookup after folding key-determined inserts over a list (covers the zero
row comprehension and the referrers_data loop): the last write wins, and every
write for a key carries the same key-determined value. -/
theorem dictLookup_foldl_insert {α β : Type} [DecidableEq α] (f : α → β) (l : List α)
    (acc : List (α × β)) (x : α) :
    dictLookup (l.foldl (fun d r => dictInsert d r (f r)) acc) x =
      if x ∈ l then some (f x) else dictLookup acc x := by
  induction l generalizing acc with
  | nil => simp
  | cons r t ih =>
    rw [List.foldl_cons, ih]
    by_cases hx : x ∈ t
    · simp [hx]
    · by_cases hr : x = r
      · subst hr
        simp [hx, dictLookup_insert_self]
      · simp [hx, hr, dictLookup_insert_ne _ _ _ _ hr]

theorem zeroRow_lookup (repo_list : List String) (r : String) :
    dictLookup (zeroRow repo_list) r =
      if r ∈ repo_list then some (Value.int 0) else none := by
  rw [zeroRow, dictLookup_foldl_insert (fun _ => Value.int 0)]
  simp [dictLookup]

/-! ## Lemmas: the gap filler -/

theorem addNA_lookup (repo_list : List String) (row : Row) (r : String) :
    dictLookup (addNA repo_list row) r =
      match dictLookup row r with
      | some v => some v
      | none => if r ∈ repo_list then some NAval else none := by
  induction repo_list generalizing row with
  | nil =>
    cases h : dictLookup row r <;> simp [addNA, h]
  | cons x xs ih =>
    rw [addNA, List.foldl_cons, ← addNA]
    by_cases hx : (dictLookup row x).isSome = true
    · rw [if_pos hx, ih]
      by_cases hr : r = x
      · subst hr
        obtain ⟨v, hv⟩ := Option.isSome_iff_exists.1 hx
        simp [hv]
      · cases h : dictLookup row r <;> simp [h, hr]
    · rw [if_neg hx, ih]
      have hnone : dictLookup row x = none := by
        cases hh : dictLookup row x with
        | none => rfl
        | some v => rw [hh] at hx; simp at hx
      by_cases hr : r = x
      · subst hr
        rw [hnone, dictLookup_append, hnone]
        simp [dictLookup]
      · rw [dictLookup_append]
        cases h : dictLookup row r <;> simp [h, dictLookup, hr, Ne.symm hr]

theorem addNA_keys_mem (repo_list : List String) (row : Row) (r : String) :
    r ∈ (addNA repo_list row).map Prod.fst ↔ r ∈ row.map Prod.fst ∨ r ∈ repo_list := by
  rw [← dictLookup_isSome_iff, ← dictLookup_isSome_iff, addNA_lookup]
  cases h : dictLookup row r <;> by_cases hr : r ∈ repo_list <;> simp [h, hr]

theorem addNA_of_saturated (repo_list : List String) (row : Row)
    (h : ∀ r ∈ repo_list, (dictLookup row r).isSome = true) :
    addNA repo_list row = row := by
  induction repo_list with
  | nil => rfl
  | cons x xs ih =>
    rw [addNA, List.foldl_cons, ← addNA, if_pos (h x (by simp))]
    exact ih fun r hr => h r (by simp [hr])

theorem addNA_nodup (repo_list : List String) (row : Row)
    (h : (row.map Prod.fst).Nodup) : ((addNA repo_list row).map Prod.fst).Nodup := by
  induction repo_list generalizing row with
  | nil => exact h
  | cons x xs ih =>
    rw [addNA, List.foldl_cons, ← addNA]
    by_cases hx : (dictLookup row x).isSome = true
    · rw [if_pos hx]
      exact ih row h
    · rw [if_neg hx]
      refine ih _ ?_
      have hmem : x ∉ row.map Prod.fst := by
        rw [← dictLookup_eq_none_iff]
        cases hh : dictLookup row x with
        | none => rfl
        | some v => rw [hh] at hx; simp at hx
      rw [List.map_append, List.nodup_append]
      refine ⟨h, by simp, ?_⟩
      intro y hy hya
      simp only [List.map_cons, List.map_nil, List.mem_singleton] at hya
      subst hya
      exact hmem hy

theorem extMin_le_init (a : Nat) (t : Table) : extMin a t ≤ a := by
  induction t generalizing a with
  | nil => simp [extMin]
  | cons p ps ih =>
    rw [extMin, List.foldl_cons, ← extMin]
    exact le_trans (ih _) (Nat.min_le_left _ _)

theorem extMin_le_key (a : Nat) (t : Table) : ∀ p ∈ t, extMin a t ≤ p.1 := by
  induction t generalizing a with
  | nil => simp
  | cons q ps ih =>
    intro p hp
    rw [extMin, List.foldl_cons, ← extMin]
    rcases List.mem_cons.1 hp with h | h
    · subst h
      exact le_trans (extMin_le_init _ _) (Nat.min_le_right _ _)
    · exact ih _ p h

theorem le_extMin (a b : Nat) (t : Table) (ha : b ≤ a) (h : ∀ p ∈ t, b ≤ p.1) :
    b ≤ extMin a t := by
  induction t generalizing a with
  | nil => simpa [extMin] using ha
  | cons p ps ih =>
    rw [extMin, List.foldl_cons, ← extMin]
    exact ih _ (le_min ha (h p (by simp))) fun q hq => h q (by simp [hq])

theorem init_le_extMax (a : Nat) (t : Table) : a ≤ extMax a t := by
  induction t generalizing a with
  | nil => simp [extMax]
  | cons p ps ih =>
    rw [extMax, List.foldl_cons, ← extMax]
    exact le_trans (Nat.le_max_left _ _) (ih _)

theorem key_le_extMax (a : Nat) (t : Table) : ∀ p ∈ t, p.1 ≤ extMax a t := by
  induction t generalizing a with
  | nil => simp
  | cons q ps ih =>
    intro p hp
    rw [extMax, List.foldl_cons, ← extMax]
    rcases List.mem_cons.1 hp with h | h
    · subst h
      exact le_trans (Nat.le_max_right _ _) (init_le_extMax _ _)
    · exact ih _ p h

theorem extMax_le (a b : Nat) (t : Table) (ha : a ≤ b) (h : ∀ p ∈ t, p.1 ≤ b) :
    extMax a t ≤ b := by
  induction t generalizing a with
  | nil => simpa [extMax] using ha
  | cons p ps ih =>
    rw [extMax, List.foldl_cons, ← extMax]
    exact ih _ (max_le ha (h p (by simp))) fun q hq => h q (by simp [hq])

theorem dateStep_lookup (repo_list : List String) (t : Table) (c d : Nat) :
    dictLookup (dateStep repo_list t c) d =
      match dictLookup t d with
      | some row => some row
      | none => if c = d then some (zeroRow repo_list) else none := by
  rw [dateStep]
  by_cases h : (dictLookup t c).isSome = true
  · rw [if_pos h]
    cases hd : dictLookup t d with
    | some row => rfl
    | none =>
      by_cases hc : c = d
      · subst hc
        rw [hd] at h
        simp at h
      · simp [hc]
  · rw [if_neg h, dictLookup_append]
    cases hd : dictLookup t d <;> simp [dictLookup]

theorem foldl_dateStep_lookup (repo_list : List String) :
    ∀ (k s : Nat) (t : Table) (d : Nat),
    dictLookup ((List.range' s k).foldl (dateStep repo_list) t) d =
      match dictLookup t d with
      | some row => some row
      | none => if s ≤ d ∧ d < s + k then some (zeroRow repo_list) else none := by
  intro k
  induction k with
  | zero =>
    intro s t d
    cases h : dictLookup t d with
    | some row => simp [h]
    | none =>
      have hf : ¬(s ≤ d ∧ d < s) := by omega
      simp [h, hf]
  | succ k ih =>
    intro s t d
    rw [List.range'_succ, List.foldl_cons, ih, dateStep_lookup]
    cases h : dictLookup t d with
    | some row => rfl
    | none =>
      by_cases hc : s = d
      · subst hc
        simp
      · simp only [hc, if_false]
        have : (s + 1 ≤ d ∧ d < s + 1 + k) ↔ (s ≤ d ∧ d < s + (k + 1)) := by omega
        rw [if_congr this rfl rfl]

/-- Lookup in the gap-filled table: a pre-existing date keeps its row with "NA"
added for absent repositories; a missing date inside the extended range gets
the all-zero row; outside the range nothing is added. -/
theorem complement_lookup (min_date max_date : Nat) (repo_list : List String)
    (data : Table) (d : Nat) :
    dictLookup (complement_data_structure min_date max_date repo_list data) d =
      match dictLookup data d with
      | some row => some (addNA repo_list row)
      | none =>
        if extMin min_date data ≤ d ∧ d ≤ extMax max_date data then
          some (zeroRow repo_list)
        else none := by
  rw [complement_data_structure]
  by_cases h : 0 < data.length
  · rw [if_pos h, dateLoop, foldl_dateStep_lookup, dictLookup_map_value]
    cases hd : dictLookup data d with
    | some row => rfl
    | none =>
      simp only [Option.map_none']
      have heq : (extMin min_date data ≤ d ∧
          d < extMin min_date data + (extMax max_date data + 1 - extMin min_date data)) ↔
          (extMin min_date data ≤ d ∧ d ≤ extMax max_date data) := by
        constructor
        · intro ⟨h1, h2⟩
          omega
        · intro ⟨h1, h2⟩
          refine ⟨h1, ?_⟩
          have h3 : extMin min_date data ≤ extMax max_date data := le_trans h1 h2
          omega
      rw [if_congr heq rfl rfl]
  · rw [if_neg h]
    have ht : data = [] := by
      cases data with
      | nil => rfl
      | cons p ps => simp at h
    subst ht
    rw [dateLoop, foldl_dateStep_lookup]
    simp only [dictLookup, extMin, extMax, List.foldl_nil]
    have heq : (min_date ≤ d ∧ d < min_date + (max_date + 1 - min_date)) ↔
        (min_date ≤ d ∧ d ≤ max_date) := by omega
    rw [if_congr heq rfl rfl]

theorem foldl_dateStep_nodup (repo_list : List String) :
    ∀ (l : List Nat) (t : Table), (t.map Prod.fst).Nodup →
    ((l.foldl (dateStep repo_list) t).map Prod.fst).Nodup := by
  intro l
  induction l with
  | nil => exact fun t h => h
  | cons c cs ih =>
    intro t h
    rw [List.foldl_cons]
    refine ih _ ?_
    rw [dateStep]
    by_cases hc : (dictLookup t c).isSome = true
    · rwa [if_pos hc]
    · rw [if_neg hc, List.map_append, List.nodup_append]
      refine ⟨h, by simp, ?_⟩
      intro y hy hya
      simp only [List.map_cons, List.map_nil, List.mem_singleton] at hya
      subst hya
      have : y ∈ t.map Prod.fst → (dictLookup t y).isSome = true :=
        fun hm => (dictLookup_isSome_iff t y).2 hm
      exact hc (this hy)

theorem foldl_dateStep_mem (repo_list : List String) :
    ∀ (l : List Nat) (t : Table) (p : Nat × Row), p ∈ l.foldl (dateStep repo_list) t →
    p ∈ t ∨ (p.1 ∈ l ∧ p.2 = zeroRow repo_list) := by
  intro l
  induction l with
  | nil => exact fun t p h => Or.inl h
  | cons c cs ih =>
    intro t p hp
    rw [List.foldl_cons] at hp
    rcases ih _ p hp with h | h
    · rw [dateStep] at h
      by_cases hc : (dictLookup t c).isSome = true
      · rw [if_pos hc] at h
        exact Or.inl h
      · rw [if_neg hc] at h
        rcases List.mem_append.1 h with h | h
        · exact Or.inl h
        · rw [List.mem_singleton] at h
          subst h
          exact Or.inr ⟨by simp, rfl⟩
    · exact Or.inr ⟨by simp [h.1], h.2⟩

theorem foldl_dateStep_append_shape (repo_list : List String) :
    ∀ (l : List Nat) (t : Table), ∃ ext, l.foldl (dateStep repo_list) t = t ++ ext := by
  intro l
  induction l with
  | nil => exact fun t => ⟨[], by simp⟩
  | cons c cs ih =>
    intro t
    rw [List.foldl_cons, dateStep]
    by_cases hc : (dictLookup t c).isSome = true
    · rw [if_pos hc]
      exact ih t
    · rw [if_neg hc]
      obtain ⟨ext, hext⟩ := ih (t ++ [(c, zeroRow repo_list)])
      exact ⟨(c, zeroRow repo_list) :: ext, by simp [hext]⟩

theorem foldl_dateStep_id (repo_list : List String) :
    ∀ (l : List Nat) (t : Table), (∀ c ∈ l, (dictLookup t c).isSome = true) →
    l.foldl (dateStep repo_list) t = t := by
  intro l
  induction l with
  | nil => exact fun t _ => rfl
  | cons c cs ih =>
    intro t h
    rw [List.foldl_cons, dateStep, if_pos (h c (by simp))]
    exact ih t fun x hx => h x (by simp [hx])

/-! ## Lemmas: the merge loop -/

theorem dictKeys_insert_of_mem {α β : Type} [DecidableEq α] (l : List (α × β)) (a : α) (b : β)
    (h : a ∈ l.map Prod.fst) : (dictInsert l a b).map Prod.fst = l.map Prod.fst := by
  rw [dictKeys_insert, if_pos h]

theorem cell_setCell (t : Table) (d : Nat) (r : String) (v : Value) (row : Row)
    (h : dictLookup t d = some row) (d' : Nat) (r' : String) :
    cell (dictInsert t d (dictInsert row r v)) d' r' =
      if d' = d ∧ r' = r then some v else cell t d' r' := by
  rw [cell]
  by_cases hd : d' = d
  · subst hd
    rw [dictLookup_insert_self]
    by_cases hr : r' = r
    · subst hr
      simp [dictLookup_insert_self]
    · simp only [hr, and_false, if_false, Option.some_bind]
      rw [dictLookup_insert_ne _ _ _ _ hr, cell, h]
      rfl
  · simp only [hd, false_and, if_false]
    rw [dictLookup_insert_ne _ _ _ _ hd, cell]

theorem setCell_isSome (t : Table) (d : Nat) (r : String) (v : Value) (row : Row)
    (h : dictLookup t d = some row) (x : Nat) :
    (dictLookup (dictInsert t d (dictInsert row r v)) x).isSome
      = (dictLookup t x).isSome := by
  by_cases hx : x = d
  · subst hx
    rw [dictLookup_insert_self, h]
    rfl
  · rw [dictLookup_insert_ne _ _ _ _ hx]

theorem mergeRepo_eq (r : String) :
    ∀ (dvs : List (Nat × Value)) (t : Table),
    (∀ q ∈ dvs, (dictLookup t q.1).isSome = true) →
    (dvs.map Prod.fst).Nodup →
    ∃ t', mergeRepo r t dvs = some t' ∧
      (∀ x, (dictLookup t' x).isSome = (dictLookup t x).isSome) ∧
      (∀ d' r', cell t' d' r' =
        match dictLookup dvs d' with
        | some v => if r' = r then some v else cell t d' r'
        | none => cell t d' r') := by
  intro dvs
  induction dvs with
  | nil =>
    intro t _ _
    refine ⟨t, rfl, fun x => rfl, fun d' r' => ?_⟩
    simp [dictLookup]
  | cons q rest ih =>
    intro t hpres hnd
    obtain ⟨d, v⟩ := q
    obtain ⟨row, hrow⟩ := Option.isSome_iff_exists.1 (hpres (d, v) (by simp))
    have hstep : setCell t d r v = some (dictInsert t d (dictInsert row r v)) := by
      rw [setCell, hrow]
    set t₁ := dictInsert t d (dictInsert row r v) with ht₁
    have hkeys : ∀ x, (dictLookup t₁ x).isSome = (dictLookup t x).isSome :=
      setCell_isSome t d r v row hrow
    have hpres₁ : ∀ q ∈ rest, (dictLookup t₁ q.1).isSome = true := by
      intro q hq
      rw [hkeys]
      exact hpres q (by simp [hq])
    obtain ⟨t', ht', hk', hc'⟩ := ih t₁ hpres₁ (by simpa using hnd.of_cons)
    refine ⟨t', ?_, fun x => by rw [hk', hkeys], ?_⟩
    · rw [mergeRepo, hstep]
      exact ht'
    · intro d' r'
      have hdd : d ∉ rest.map Prod.fst := by
        have := hnd
        simp only [List.map_cons, List.nodup_cons] at this
        exact this.1
      rw [hc' d' r']
      by_cases hd : d' = d
      · subst hd
        rw [(dictLookup_eq_none_iff rest d').2 hdd]
        have : dictLookup ((d', v) :: rest) d' = some v := by simp [dictLookup]
        rw [this, cell_setCell t d' r v row hrow]
        by_cases hr : r' = r
        · simp [hr]
        · simp [hr]
      · have : dictLookup ((d, v) :: rest) d' = dictLookup rest d' := by
          simp [dictLookup, Ne.symm hd]
        rw [this]
        cases hl : dictLookup rest d' with
        | some v' =>
          rw [cell_setCell t d r v row hrow]
          simp [hd]
        | none =>
          rw [cell_setCell t d r v row hrow]
          simp [hd]

theorem mergeFetched_eq :
    ∀ (raw : List (String × List (Nat × Value))) (t : Table),
    (∀ p ∈ raw, ∀ q ∈ p.2, (dictLookup t q.1).isSome = true) →
    (∀ p ∈ raw, (p.2.map Prod.fst).Nodup) →
    (raw.map Prod.fst).Nodup →
    ∃ t', mergeFetched t raw = some t' ∧
      (∀ x, (dictLookup t' x).isSome = (dictLookup t x).isSome) ∧
      (∀ d' r', cell t' d' r' =
        match fetchedAt raw r' d' with
        | some v => some v
        | none => cell t d' r') := by
  intro raw
  induction raw with
  | nil =>
    intro t _ _ _
    refine ⟨t, rfl, fun x => rfl, fun d' r' => ?_⟩
    simp [fetchedAt, dictLookup]
  | cons p rest ih =>
    intro t hpres hdnd hrnd
    obtain ⟨r, dvs⟩ := p
    obtain ⟨t₁, ht₁, hk₁, hc₁⟩ :=
      mergeRepo_eq r dvs t (fun q hq => hpres (r, dvs) (by simp) q hq)
        (hdnd (r, dvs) (by simp))
    have hpres₁ : ∀ p ∈ rest, ∀ q ∈ p.2, (dictLookup t₁ q.1).isSome = true := by
      intro p hp q hq
      rw [hk₁]
      exact hpres p (by simp [hp]) q hq
    obtain ⟨t', ht', hk', hc'⟩ := ih t₁ hpres₁
      (fun p hp => hdnd p (by simp [hp])) (by simpa using hrnd.of_cons)
    have hrr : r ∉ rest.map Prod.fst := by
      have := hrnd
      simp only [List.map_cons, List.nodup_cons] at this
      exact this.1
    refine ⟨t', ?_, fun x => by rw [hk', hk₁], ?_⟩
    · rw [mergeFetched, ht₁]
      exact ht'
    · intro d' r'
      rw [hc' d' r']
      by_cases hr : r' = r
      · subst hr
        have h1 : fetchedAt ((r', dvs) :: rest) r' d' = dictLookup dvs d' := by
          simp [fetchedAt, dictLookup]
        have h2 : fetchedAt rest r' d' = none := by
          rw [fetchedAt, (dictLookup_eq_none_iff rest r').2 hrr]
          rfl
        rw [h1, h2, hc₁ d' r']
        cases hl : dictLookup dvs d' <;> simp
      · have h1 : fetchedAt ((r, dvs) :: rest) r' d' = fetchedAt rest r' d' := by
          simp [fetchedAt, dictLookup, Ne.symm hr]
        rw [h1, hc₁ d' r']
        have hcollapse :
            (match dictLookup dvs d' with
              | some v => if r' = r then some v else cell t d' r'
              | none => cell t d' r') = cell t d' r' := by
          cases dictLookup dvs d' <;> simp [hr]
        rw [hcollapse]

/-! ## Lemmas: assembled facts about the gap filler -/

theorem dictLookup_some_mem {α β : Type} [DecidableEq α] (l : List (α × β)) (a : α) (b : β)
    (h : dictLookup l a = some b) : (a, b) ∈ l := by
  induction l with
  | nil => simp [dictLookup] at h
  | cons p t ih =>
    obtain ⟨k, v⟩ := p
    rw [dictLookup] at h
    by_cases hk : k = a
    · rw [if_pos hk] at h
      cases h
      subst hk
      simp
    · rw [if_neg hk] at h
      simp [ih h]

theorem complement_keys_nodup (min_date max_date : Nat) (repo_list : List String)
    (data : Table) (hnd : (data.map Prod.fst).Nodup) :
    ((complement_data_structure min_date max_date repo_list data).map Prod.fst).Nodup := by
  rw [complement_data_structure]
  by_cases h : 0 < data.length
  · rw [if_pos h, dateLoop]
    apply foldl_dateStep_nodup
    simpa [List.map_map, Function.comp] using hnd
  · rw [if_neg h, dateLoop]
    exact foldl_dateStep_nodup _ _ _ hnd

theorem zeroRow_keys_mem (repo_list : List String) (r : String) :
    r ∈ (zeroRow repo_list).map Prod.fst ↔ r ∈ repo_list := by
  rw [← dictLookup_isSome_iff, zeroRow_lookup]
  by_cases h : r ∈ repo_list <;> simp [h]

/-! ## Claim C1 -/

/-- Claim C1, counterexample: filling a table whose row holds a repository "C"
outside the repository list keeps that foreign key, so the result's row key set
is not exactly the repository list. -/
theorem fill_keeps_foreign_repo_cex :
    complement_data_structure 0 0 ["A"] [(0, [("C", Value.int 5)])]
      = [(0, [("C", Value.int 5), ("A", NAval)])] ∧
    "C" ∈ ([("C", Value.int 5), ("A", NAval)] : Row).map Prod.fst ∧ "C" ∉ ["A"] :=
  ⟨by decide, by decide, by decide⟩

/-- Claim C1 (amended): for an existing nodup table and minDate <= maxDate, the
gap-filled table contains exactly the dates of the extended inclusive range,
one row per date; a row's keys comprise the repository list together with the
keys the date already had in the existing table (a new date's row has exactly
the repository list; a pre-existing date keeps its old keys, including
repositories outside the list). -/
theorem fill_range_and_rowkeys (min_date max_date : Nat) (repo_list : List String)
    (data : Table) (hnd : (data.map Prod.fst).Nodup) (hle : min_date ≤ max_date) :
    ((complement_data_structure min_date max_date repo_list data).map Prod.fst).Nodup ∧
    (∀ d, d ∈ (complement_data_structure min_date max_date repo_list data).map Prod.fst ↔
      (extMin min_date data ≤ d ∧ d ≤ extMax max_date data)) ∧
    (∀ d row,
      dictLookup (complement_data_structure min_date max_date repo_list data) d = some row →
      ∀ r, r ∈ row.map Prod.fst ↔
        (r ∈ repo_list ∨ ∃ row₀, dictLookup data d = some row₀ ∧ r ∈ row₀.map Prod.fst)) := by
  refine ⟨complement_keys_nodup _ _ _ _ hnd, fun d => ?_, fun d row hrow r => ?_⟩
  · rw [← dictLookup_isSome_iff, complement_lookup]
    cases hd : dictLookup data d with
    | some row0 =>
      simp only [Option.isSome_some, true_iff]
      have hmem := dictLookup_some_mem data d row0 hd
      exact ⟨extMin_le_key _ _ _ hmem, key_le_extMax _ _ _ hmem⟩
    | none =>
      by_cases hr : extMin min_date data ≤ d ∧ d ≤ extMax max_date data
      · simp [hr]
      · simp [hr]
  · rw [complement_lookup] at hrow
    cases hd : dictLookup data d with
    | some row0 =>
      rw [hd] at hrow
      have hrow' : addNA repo_list row0 = row := by
        simpa using hrow
      subst hrow'
      rw [addNA_keys_mem]
      constructor
      · rintro (h | h)
        · exact Or.inr ⟨row0, rfl, h⟩
        · exact Or.inl h
      · rintro (h | ⟨row1, hrow1, h⟩)
        · exact Or.inr h
        · have : row1 = row0 := by
            simpa using hrow1.symm
          subst this
          exact Or.inl h
    | none =>
      rw [hd] at hrow
      by_cases hc : extMin min_date data ≤ d ∧ d ≤ extMax max_date data
      · rw [if_pos hc] at hrow
        have hrow' : zeroRow repo_list = row := by
          simpa using hrow
        subst hrow'
        rw [zeroRow_keys_mem]
        constructor
        · exact Or.inl
        · rintro (h | ⟨row1, hrow1, _⟩)
          · exact h
          · simp at hrow1
      · rw [if_neg hc] at hrow
        simp at hrow

/-- Claim C1, witness: the amended statement instantiated on the empty table
with range 0..0 and one repository. -/
theorem fill_range_and_rowkeys_witness :
    (([] : Table).map Prod.fst).Nodup ∧ (0 : Nat) ≤ 0 ∧
    (((complement_data_structure 0 0 ["A"] []).map Prod.fst).Nodup ∧
     (∀ d, d ∈ (complement_data_structure 0 0 ["A"] []).map Prod.fst ↔
       (extMin 0 [] ≤ d ∧ d ≤ extMax 0 [])) ∧
     (∀ d row, dictLookup (complement_data_structure 0 0 ["A"] []) d = some row →
       ∀ r, r ∈ row.map Prod.fst ↔
         (r ∈ ["A"] ∨ ∃ row₀, dictLookup ([] : Table) d = some row₀ ∧
           r ∈ row₀.map Prod.fst))) :=
  ⟨by decide, by decide, fill_range_and_rowkeys 0 0 ["A"] [] (by decide) (by decide)⟩

/-! ## Claim C2 -/

/-- Claim C2: over any run that gap-fills an existing table against the global
fetched range and then overwrites with the fetched values, a repository with
no entry on a pre-existing date reads "NA" unless fetched, gap dates read 0
for every listed repository unless fetched, fetched values always win, and no
historical cell that was not fetched this run is erased; in particular the
spec's concrete scenario produces exactly the expected merged table. -/
theorem merge_run_spec :
    (∀ (data : Table) (repo_list : List String) (raw : List (String × List (Nat × Value)))
      (min_date max_date : Nat),
      (raw.map Prod.fst).Nodup →
      (∀ p ∈ raw, (p.2.map Prod.fst).Nodup) →
      (∀ p ∈ raw, ∀ q ∈ p.2, min_date ≤ q.1 ∧ q.1 ≤ max_date) →
      ∃ merged,
        mergeFetched (complement_data_structure min_date max_date repo_list data) raw
          = some merged ∧
        (∀ r d v, fetchedAt raw r d = some v → cell merged d r = some v) ∧
        (∀ d row, dictLookup data d = some row → ∀ r ∈ repo_list,
          dictLookup row r = none → fetchedAt raw r d = none →
          cell merged d r = some NAval) ∧
        (∀ d, extMin min_date data ≤ d → d ≤ extMax max_date data →
          dictLookup data d = none → ∀ r ∈ repo_list,
          fetchedAt raw r d = none → cell merged d r = some (Value.int 0)) ∧
        (∀ d row r v, dictLookup data d = some row → dictLookup row r = some v →
          fetchedAt raw r d = none → cell merged d r = some v)) ∧
    mergeFetched
        (complement_data_structure 2 3 ["A", "B"]
          [(1, [("A", Value.int 5)]), (2, [("A", Value.int 5)])])
        [("A", [(2, Value.int 7), (3, Value.int 3)]),
         ("B", [(2, Value.int 2), (3, Value.int 1)])]
      = some [(1, [("A", Value.int 5), ("B", NAval)]),
              (2, [("A", Value.int 7), ("B", Value.int 2)]),
              (3, [("A", Value.int 3), ("B", Value.int 1)])] := by
  constructor
  · intro data repo_list raw min_date max_date hrnd hdnd hrange
    have hfillpres : ∀ p ∈ raw, ∀ q ∈ p.2,
        (dictLookup (complement_data_structure min_date max_date repo_list data) q.1).isSome
          = true := by
      intro p hp q hq
      rw [complement_lookup]
      cases hd : dictLookup data q.1 with
      | some row => rfl
      | none =>
        have h1 : extMin min_date data ≤ q.1 :=
          le_trans (extMin_le_init _ _) (hrange p hp q hq).1
        have h2 : q.1 ≤ extMax max_date data :=
          le_trans (hrange p hp q hq).2 (init_le_extMax _ _)
        rw [if_pos ⟨h1, h2⟩]
        rfl
    obtain ⟨merged, hm, hk, hc⟩ :=
      mergeFetched_eq raw (complement_data_structure min_date max_date repo_list data)
        hfillpres hdnd hrnd
    have hcellfill : ∀ d r, fetchedAt raw r d = none →
        cell merged d r
          = cell (complement_data_structure min_date max_date repo_list data) d r := by
      intro d r hf
      rw [hc d r, hf]
    refine ⟨merged, hm, ?_, ?_, ?_, ?_⟩
    · intro r d v hf
      rw [hc d r, hf]
    · intro d row hrow r hr hnone hf
      rw [hcellfill d r hf, cell, complement_lookup, hrow]
      simp only [Option.some_bind]
      rw [addNA_lookup, hnone, if_pos hr]
    · intro d h1 h2 hnone r hr hf
      rw [hcellfill d r hf, cell, complement_lookup, hnone, if_pos ⟨h1, h2⟩]
      simp only [Option.some_bind]
      rw [zeroRow_lookup, if_pos hr]
    · intro d row r v hrow hv hf
      rw [hcellfill d r hf, cell, complement_lookup, hrow]
      simp only [Option.some_bind]
      rw [addNA_lookup, hv]
  · decide

/-- Claim C2, witness: the general statement applied to the spec's concrete
scenario (table with repo A on days 1 and 2, fetch adding repo B on days 2
and 3). -/
theorem merge_run_spec_witness :
    ((([("A", [(2, Value.int 7), (3, Value.int 3)]),
        ("B", [(2, Value.int 2), (3, Value.int 1)])] :
          List (String × List (Nat × Value))).map Prod.fst).Nodup ∧
     (∀ p ∈ ([("A", [(2, Value.int 7), (3, Value.int 3)]),
        ("B", [(2, Value.int 2), (3, Value.int 1)])] :
          List (String × List (Nat × Value))), (p.2.map Prod.fst).Nodup) ∧
     (∀ p ∈ ([("A", [(2, Value.int 7), (3, Value.int 3)]),
        ("B", [(2, Value.int 2), (3, Value.int 1)])] :
          List (String × List (Nat × Value))), ∀ q ∈ p.2, 2 ≤ q.1 ∧ q.1 ≤ 3)) ∧
    ∃ merged,
      mergeFetched
          (complement_data_structure 2 3 ["A", "B"]
            [(1, [("A", Value.int 5)]), (2, [("A", Value.int 5)])])
          [("A", [(2, Value.int 7), (3, Value.int 3)]),
           ("B", [(2, Value.int 2), (3, Value.int 1)])]
        = some merged :=
  ⟨⟨by decide, by decide, by decide⟩,
    match merge_run_spec.1 [(1, [("A", Value.int 5)]), (2, [("A", Value.int 5)])]
      ["A", "B"]
      [("A", [(2, Value.int 7), (3, Value.int 3)]), ("B", [(2, Value.int 2), (3, Value.int 1)])]
      2 3 (by decide) (by decide) (by decide) with
    | ⟨merged, hm, _⟩ => ⟨merged, hm⟩⟩

/-! ## Claim C9 -/

theorem mem_range'_iff (m s n : Nat) : m ∈ List.range' s n ↔ s ≤ m ∧ m < s + n := by
  rw [List.mem_range']
  constructor
  · rintro ⟨i, hi, rfl⟩
    omega
  · intro ⟨h1, h2⟩
    exact ⟨m - s, by omega, by omega⟩

theorem map_eq_self_of {α : Type} (l : List α) (f : α → α) (h : ∀ x ∈ l, f x = x) :
    l.map f = l := by
  induction l with
  | nil => rfl
  | cons x xs ih =>
    rw [List.map_cons, h x (by simp), ih fun y hy => h y (by simp [hy])]

theorem addNA_saturated (repo_list : List String) (row : Row) (r : String)
    (hr : r ∈ repo_list) : (dictLookup (addNA repo_list row) r).isSome = true := by
  rw [addNA_lookup]
  cases h : dictLookup row r with
  | some v => rfl
  | none => rw [if_pos hr]; rfl

theorem zeroRow_saturated (repo_list : List String) (r : String) (hr : r ∈ repo_list) :
    (dictLookup (zeroRow repo_list) r).isSome = true := by
  rw [zeroRow_lookup, if_pos hr]
  rfl

/-- Every row of a gap-filled table carries every repository of the list. -/
theorem complement_rows_saturated (min_date max_date : Nat) (repo_list : List String)
    (data : Table) (p : Nat × Row)
    (hp : p ∈ complement_data_structure min_date max_date repo_list data) (r : String)
    (hr : r ∈ repo_list) : (dictLookup p.2 r).isSome = true := by
  rw [complement_data_structure] at hp
  by_cases h : 0 < data.length
  · rw [if_pos h, dateLoop] at hp
    rcases foldl_dateStep_mem repo_list _ _ p hp with hmem | hmem
    · obtain ⟨q, hq, hqe⟩ := List.mem_map.1 hmem
      rw [← hqe]
      exact addNA_saturated repo_list q.2 r hr
    · rw [hmem.2]
      exact zeroRow_saturated repo_list r hr
  · rw [if_neg h, dateLoop] at hp
    rcases foldl_dateStep_mem repo_list _ _ p hp with hmem | hmem
    · have hd : data = [] := by
        cases data with
        | nil => rfl
        | cons q qs => simp at h
      rw [hd] at hmem
      simp at hmem
    · rw [hmem.2]
      exact zeroRow_saturated repo_list r hr

/-- Every date key of a gap-filled table lies in the extended range. -/
theorem complement_keys_bounded (min_date max_date : Nat) (repo_list : List String)
    (data : Table) (p : Nat × Row)
    (hp : p ∈ complement_data_structure min_date max_date repo_list data) :
    extMin min_date data ≤ p.1 ∧ p.1 ≤ extMax max_date data := by
  rw [complement_data_structure] at hp
  by_cases h : 0 < data.length
  · rw [if_pos h, dateLoop] at hp
    rcases foldl_dateStep_mem repo_list _ _ p hp with hmem | hmem
    · obtain ⟨q, hq, hqe⟩ := List.mem_map.1 hmem
      have h1 := extMin_le_key min_date data q hq
      have h2 := key_le_extMax max_date data q hq
      have : p.1 = q.1 := by rw [← hqe]
      rw [this]
      exact ⟨h1, h2⟩
    · rw [mem_range'_iff] at hmem
      have := hmem.1
      omega
  · rw [if_neg h, dateLoop] at hp
    have hd : data = [] := by
      cases data with
      | nil => rfl
      | cons q qs => simp at h
    subst hd
    rcases foldl_dateStep_mem repo_list _ _ p hp with hmem | hmem
    · simp at hmem
    · rw [mem_range'_iff] at hmem
      simp only [extMin, extMax, List.foldl_nil]
      have := hmem.1
      omega

/-- The gap-filled table has a row for every date of the extended range. -/
theorem complement_range_present (min_date max_date : Nat) (repo_list : List String)
    (data : Table) (d : Nat) (h1 : extMin min_date data ≤ d)
    (h2 : d ≤ extMax max_date data) :
    (dictLookup (complement_data_structure min_date max_date repo_list data) d).isSome
      = true := by
  rw [complement_lookup]
  cases hd : dictLookup data d with
  | some row => rfl
  | none => rw [if_pos ⟨h1, h2⟩]; rfl

/-- Claim C9: gap-filling is idempotent (literal structural equality of the
resulting dicts, which implies Python ==). -/
theorem fill_idempotent (min_date max_date : Nat) (repo_list : List String) (data : Table)
    (hab : min_date ≤ max_date) :
    complement_data_structure min_date max_date repo_list
        (complement_data_structure min_date max_date repo_list data)
      = complement_data_structure min_date max_date repo_list data := by
  have hminmax : extMin min_date data ≤ extMax max_date data :=
    le_trans (extMin_le_init _ _)
      (le_trans hab (init_le_extMax _ _))
  set T₁ := complement_data_structure min_date max_date repo_list data with hT₁
  have hpres : (dictLookup T₁ (extMin min_date data)).isSome = true :=
    complement_range_present _ _ _ _ _ (le_refl _) hminmax
  have hne : 0 < T₁.length := by
    cases hT : T₁ with
    | nil => rw [hT] at hpres; simp [dictLookup] at hpres
    | cons p ps => simp
  have hmin : extMin min_date T₁ = extMin min_date data := by
    apply le_antisymm
    · obtain ⟨row, hrow⟩ := Option.isSome_iff_exists.1 hpres
      exact extMin_le_key min_date T₁ _ (dictLookup_some_mem _ _ _ hrow)
    · exact le_extMin _ _ _ (extMin_le_init _ _)
        fun p hp => (complement_keys_bounded _ _ _ _ p hp).1
  have hmax : extMax max_date T₁ = extMax max_date data := by
    apply le_antisymm
    · exact extMax_le _ _ _ (init_le_extMax _ _)
        fun p hp => (complement_keys_bounded _ _ _ _ p hp).2
    · obtain ⟨rowm, hrowm⟩ := Option.isSome_iff_exists.1
        (complement_range_present min_date max_date repo_list data (extMax max_date data)
          hminmax (le_refl _))
      exact key_le_extMax max_date T₁ _ (dictLookup_some_mem _ _ _ hrowm)
  have hmapid : (T₁.map fun p => (p.1, addNA repo_list p.2)) = T₁ := by
    apply map_eq_self_of
    intro p hp
    have : addNA repo_list p.2 = p.2 :=
      addNA_of_saturated repo_list p.2 fun r hr =>
        complement_rows_saturated min_date max_date repo_list data p hp r hr
    rw [this]
  conv_lhs => rw [complement_data_structure]
  rw [if_pos hne, hmapid, hmin, hmax, dateLoop]
  apply foldl_dateStep_id
  intro c hc
  rw [mem_range'_iff] at hc
  exact complement_range_present _ _ _ _ c hc.1 (by omega)

/-- Claim C9, witness: idempotence instantiated on a concrete table and
range. -/
theorem fill_idempotent_witness :
    (1 : Nat) ≤ 3 ∧
    complement_data_structure 1 3 ["A"]
        (complement_data_structure 1 3 ["A"] [(5, [("B", Value.int 2)])])
      = complement_data_structure 1 3 ["A"] [(5, [("B", Value.int 2)])] :=
  ⟨by decide, fill_idempotent 1 3 ["A"] [(5, [("B", Value.int 2)])] (by decide)⟩

/-! ## Claim C4 -/

theorem lookupAll_eq (row : Row) :
    ∀ (rs : List String), (∀ r ∈ rs, (dictLookup row r).isSome = true) →
    lookupAll row rs = some (rs.map fun r => (dictLookup row r).getD NAval) := by
  intro rs
  induction rs with
  | nil => intro _; rfl
  | cons r rest ih =>
    intro h
    obtain ⟨v, hv⟩ := Option.isSome_iff_exists.1 (h r (by simp))
    rw [lookupAll, hv, ih fun x hx => h x (by simp [hx]), List.map_cons, hv]
    rfl

theorem renderRows_eq (repo_list : List String) :
    ∀ (data : Table), (∀ p ∈ data, ∀ r ∈ repo_list, (dictLookup p.2 r).isSome = true) →
    renderRows repo_list data
      = some (data.map fun p =>
          dateToStr p.1 ::
            repo_list.map fun r => ((dictLookup p.2 r).getD NAval).render) := by
  intro data
  induction data with
  | nil => intro _; rfl
  | cons p ps ih =>
    intro h
    rw [renderRows, renderRow,
      lookupAll_eq p.2 repo_list fun r hr => h p (by simp) r hr,
      ih fun q hq r hr => h q (by simp [hq]) r hr]
    simp [List.map_map]

/-- Claim C4, counterexample: a table whose date keys were inserted in
descending order is serialized in that insertion order, not in ascending date
order. -/
theorem write_table_not_sorted_cex :
    write_table [(1, [("A", Value.int 5)]), (0, [("A", Value.int 6)])] ["A"]
      = some [["date", "A"], ["1", "5"], ["0", "6"]] ∧
    write_table [(1, [("A", Value.int 5)]), (0, [("A", Value.int 6)])] ["A"]
      ≠ some [["date", "A"], ["0", "6"], ["1", "5"]] :=
  ⟨by decide, by decide⟩

/-- Claim C4 (amended): write_table emits, after the header, exactly one row
per date key of the table in the dict's insertion order (not sorted), each
row's values positionally matched to the repository order; ascending date
order holds only when the insertion order is ascending. -/
theorem write_table_insertion_order (data : Table) (repo_list : List String)
    (h : ∀ p ∈ data, ∀ r ∈ repo_list, (dictLookup p.2 r).isSome = true) :
    write_table data repo_list
      = some (("date" :: repo_list) ::
          data.map fun p =>
            dateToStr p.1 ::
              repo_list.map fun r => ((dictLookup p.2 r).getD NAval).render) := by
  rw [write_table, renderRows_eq repo_list data h]
  rfl

/-- Claim C4, witness: the amended statement on a two-row table inserted in
descending date order. -/
theorem write_table_insertion_order_witness :
    (∀ p ∈ ([(1, [("A", Value.int 5)]), (0, [("A", Value.int 6)])] : Table),
      ∀ r ∈ ["A"], (dictLookup p.2 r).isSome = true) ∧
    write_table [(1, [("A", Value.int 5)]), (0, [("A", Value.int 6)])] ["A"]
      = some (("date" :: ["A"]) ::
          ([(1, [("A", Value.int 5)]), (0, [("A", Value.int 6)])] : Table).map fun p =>
            dateToStr p.1 ::
              (["A"].map fun r => ((dictLookup p.2 r).getD NAval).render)) :=
  ⟨by decide,
    write_table_insertion_order [(1, [("A", Value.int 5)]), (0, [("A", Value.int 6)])]
      ["A"] (by decide)⟩

/-! ## Claim C6 -/

theorem readFields_eq (repo_list : List String) :
    ∀ (vals : List String) (R' : List String) (i : Nat) (acc : Row),
    repo_list.drop i = R' → vals.length ≤ R'.length →
    readFields repo_list i acc vals
      = .ok ((R'.zip vals).foldl (fun a q => dictInsert a q.1 (Value.str q.2)) acc) := by
  intro vals
  induction vals with
  | nil =>
    intro R' i acc _ _
    simp [readFields]
  | cons c cs ih =>
    intro R' i acc hdrop hlen
    cases R' with
    | nil => simp at hlen
    | cons r R'' =>
      have hget : repo_list.get? i = some r := by
        have h0 : (repo_list.drop i).get? 0 = some r := by rw [hdrop]; rfl
        rwa [List.get?_drop, Nat.add_zero] at h0
      have hdrop' : repo_list.drop (i + 1) = R'' := by
        rw [← List.drop_drop 1 i repo_list, hdrop]
        rfl
      rw [readFields, hget]
      show readFields repo_list (i + 1) (dictInsert acc r (Value.str c)) cs = _
      rw [ih R'' (i + 1) (dictInsert acc r (Value.str c)) hdrop'
        (by simpa using Nat.le_of_succ_le_succ hlen)]
      rfl

theorem readRow_short (repo_list : List String) (d : String) (n : Nat) (vals : List String)
    (hd : parseDate d = some n) (hlen : vals.length ≤ repo_list.length) :
    readRow repo_list (d :: vals) = .ok (n, rowOfFields repo_list vals) := by
  rw [readRow, hd, readFields_eq repo_list vals repo_list 0 [] rfl hlen, rowOfFields]

theorem readRows_ok (repo_list : List String) :
    ∀ (lines : List (List String)) (t : Table),
    (∀ f ∈ lines, ∃ d n vals, f = d :: vals ∧ parseDate d = some n ∧
      vals.length ≤ repo_list.length) →
    readRows repo_list t lines
      = .ok (lines.foldl (fun acc f =>
          match f with
          | [] => acc
          | d :: vals => dictInsert acc ((parseDate d).getD 0) (rowOfFields repo_list vals))
          t) := by
  intro lines
  induction lines with
  | nil => intro t _; rfl
  | cons f fs ih =>
    intro t h
    obtain ⟨d, n, vals, hf, hd, hlen⟩ := h f (by simp)
    subst hf
    rw [readRows, readRow_short repo_list d n vals hd hlen]
    show readRows repo_list (dictInsert t n (rowOfFields repo_list vals)) fs = _
    rw [ih (dictInsert t n (rowOfFields repo_list vals)) fun f hf => h f (by simp [hf])]
    simp only [List.foldl_cons, hd]
    rfl

theorem dictInsert_mem {α β : Type} [DecidableEq α] (l : List (α × β)) (a : α) (b : β)
    (p : α × β) (hp : p ∈ dictInsert l a b) : p ∈ l ∨ p.2 = b := by
  induction l with
  | nil =>
    rw [dictInsert, List.mem_singleton] at hp
    subst hp
    exact Or.inr rfl
  | cons q t ih =>
    obtain ⟨k, v⟩ := q
    rw [dictInsert] at hp
    by_cases hk : k = a
    · rw [if_pos hk] at hp
      rcases List.mem_cons.1 hp with h | h
      · subst h
        exact Or.inr rfl
      · exact Or.inl (by simp [h])
    · rw [if_neg hk] at hp
      rcases List.mem_cons.1 hp with h | h
      · exact Or.inl (by simp [h])
      · rcases ih h with h1 | h1
        · exact Or.inl (by simp [h1])
        · exact Or.inr h1

theorem foldl_insert_pairs_keys (pairs : List (String × String)) :
    ∀ (acc : Row) (r : String),
    r ∈ ((pairs.foldl (fun a q => dictInsert a q.1 (Value.str q.2)) acc).map Prod.fst) →
    r ∈ acc.map Prod.fst ∨ r ∈ pairs.map Prod.fst := by
  induction pairs with
  | nil => exact fun acc r h => Or.inl h
  | cons q qs ih =>
    intro acc r h
    rw [List.foldl_cons] at h
    rcases ih _ r h with h1 | h1
    · rw [dictKeys_insert] at h1
      by_cases hq : q.1 ∈ acc.map Prod.fst
      · rw [if_pos hq] at h1
        exact Or.inl h1
      · rw [if_neg hq] at h1
        rcases List.mem_append.1 h1 with h2 | h2
        · exact Or.inl h2
        · rw [List.mem_singleton] at h2
          subst h2
          exact Or.inr (by simp)
    · exact Or.inr (by simp [h1])

theorem zip_fst_mem (vals : List String) :
    ∀ (rs : List String) (r : String), r ∈ (rs.zip vals).map Prod.fst →
    r ∈ rs.take vals.length := by
  induction vals with
  | nil => intro rs r h; simp at h
  | cons c cs ih =>
    intro rs r h
    cases rs with
    | nil => simp at h
    | cons x xs =>
      rw [List.zip_cons_cons, List.map_cons, List.mem_cons] at h
      rcases h with h | h
      · simp [h]
      · simp only [List.length_cons, List.take_succ_cons, List.mem_cons]
        exact Or.inr (ih xs r h)

/-- The keys of the row read from a short line are among the first
(field count) repositories of the header. -/
theorem rowOfFields_keys (repo_list vals : List String) (r : String)
    (h : r ∈ (rowOfFields repo_list vals).map Prod.fst) :
    r ∈ repo_list.take vals.length := by
  rw [rowOfFields] at h
  rcases foldl_insert_pairs_keys _ [] r h with h1 | h1
  · simp at h1
  · exact zip_fst_mem vals repo_list r h1

/-! ## Claim C6 theorems -/

/-- Claim C6, counterexample: a data row with fewer fields than the header
(two repositories, one value field) is accepted without any error, producing a
partial row that binds only the first repository; deserialization does not
fail with a parse error. -/
theorem read_table_short_row_ok_cex :
    read_table [["date", "A", "B"], ["7", "5"]]
      = .ok [(7, [("A", Value.str "5")])] :=
  rfl

/-- Claim C6 (amended): read_table never rejects a data row with fewer fields
than the header: every data line with a parseable date field and at most as
many value fields as header repositories is silently accepted, the value
fields bound positionally to the first repositories of the header (the
resulting rows' keys are a subset of the header's repository list, truncated
to the line's field count).  Only a row with more fields than the header
raises (an uncaught index error, not a parse error). -/
theorem read_table_accepts_short_rows (repo_list : List String)
    (rows : List (List String))
    (h : ∀ f ∈ rows, ∃ d n vals, f = d :: vals ∧ parseDate d = some n ∧
      vals.length ≤ repo_list.length) :
    read_table (("date" :: repo_list) :: rows)
      = .ok (rows.foldl (fun acc f =>
          match f with
          | [] => acc
          | d :: vals =>
            dictInsert acc ((parseDate d).getD 0) (rowOfFields repo_list vals)) []) ∧
    ∀ t, read_table (("date" :: repo_list) :: rows) = .ok t →
      ∀ p ∈ t, ∀ r ∈ p.2.map Prod.fst, r ∈ repo_list := by
  have hmain : read_table (("date" :: repo_list) :: rows)
      = .ok (rows.foldl (fun acc f =>
          match f with
          | [] => acc
          | d :: vals =>
            dictInsert acc ((parseDate d).getD 0) (rowOfFields repo_list vals)) []) := by
    rw [read_table]
    show readRows repo_list [] rows = _
    exact readRows_ok repo_list rows [] h
  refine ⟨hmain, fun t ht p hp r hr => ?_⟩
  rw [hmain] at ht
  have ht' : t = rows.foldl (fun acc f =>
      match f with
      | [] => acc
      | d :: vals =>
        dictInsert acc ((parseDate d).getD 0) (rowOfFields repo_list vals)) [] := by
    simpa using ht.symm
  subst ht'
  clear ht hmain
  -- fold invariant: every row in the accumulated table is a rowOfFields row
  suffices hsuf : ∀ (lines : List (List String)) (t₀ : Table),
      (∀ p ∈ t₀, ∀ r ∈ p.2.map Prod.fst, r ∈ repo_list) →
      ∀ p ∈ lines.foldl (fun acc f =>
          match f with
          | [] => acc
          | d :: vals =>
            dictInsert acc ((parseDate d).getD 0) (rowOfFields repo_list vals)) t₀,
      ∀ r ∈ p.2.map Prod.fst, r ∈ repo_list by
    exact hsuf rows [] (by simp) p hp r hr
  intro lines
  induction lines with
  | nil => exact fun t₀ h0 => h0
  | cons f fs ih =>
    intro t₀ h0 p hp
    rw [List.foldl_cons] at hp
    refine ih _ ?_ p hp
    intro q hq r' hr'
    cases f with
    | nil => exact h0 q hq r' hr'
    | cons d vals =>
      rcases dictInsert_mem _ _ _ q hq with hmem | hmem
      · exact h0 q hmem r' hr'
      · rw [hmem] at hr'
        exact List.take_subset _ _ (rowOfFields_keys repo_list vals r' hr')

/-- Claim C6, witness: the amended statement on a header with two repositories
and one short row. -/
theorem read_table_accepts_short_rows_witness :
    (∀ f ∈ [["7", "5"]], ∃ d n vals, f = d :: vals ∧ parseDate d = some n ∧
      vals.length ≤ (["A", "B"] : List String).length) ∧
    (read_table (("date" :: ["A", "B"]) :: [["7", "5"]])
      = .ok ([["7", "5"]].foldl (fun acc f =>
          match f with
          | [] => acc
          | d :: vals =>
            dictInsert acc ((parseDate d).getD 0) (rowOfFields ["A", "B"] vals)) []) ∧
     ∀ t, read_table (("date" :: ["A", "B"]) :: [["7", "5"]]) = .ok t →
       ∀ p ∈ t, ∀ r ∈ p.2.map Prod.fst, r ∈ ["A", "B"]) := by
  have hh : ∀ f ∈ [["7", "5"]], ∃ d n vals, f = d :: vals ∧ parseDate d = some n ∧
      vals.length ≤ (["A", "B"] : List String).length := by
    intro f hf
    rw [List.mem_singleton] at hf
    subst hf
    exact ⟨"7", 7, ["5"], rfl, rfl, by decide⟩
  exact ⟨hh, read_table_accepts_short_rows ["A", "B"] [["7", "5"]] hh⟩

/-! ## Claim C3 -/

theorem dictInsert_append_of_not_mem {α β : Type} [DecidableEq α] (l : List (α × β))
    (a : α) (b : β) (h : a ∉ l.map Prod.fst) : dictInsert l a b = l ++ [(a, b)] := by
  induction l with
  | nil => rfl
  | cons q t ih =>
    obtain ⟨k, v⟩ := q
    simp only [List.map_cons, List.mem_cons] at h
    push_neg at h
    rw [dictInsert, if_neg (Ne.symm h.1), ih h.2]
    rfl

theorem foldl_dictInsert_fresh (data : Table) (g : Nat × Row → Row) :
    ∀ (acc : Table), (∀ p ∈ data, p.1 ∉ acc.map Prod.fst) →
    (data.map Prod.fst).Nodup →
    data.foldl (fun acc p => dictInsert acc p.1 (g p)) acc
      = acc ++ data.map fun p => (p.1, g p) := by
  induction data with
  | nil => intro acc _ _; simp
  | cons p ps ih =>
    intro acc hfresh hnd
    rw [List.foldl_cons,
      dictInsert_append_of_not_mem acc p.1 (g p) (hfresh p (by simp))]
    have hnd' : (ps.map Prod.fst).Nodup := by
      simp only [List.map_cons, List.nodup_cons] at hnd
      exact hnd.2
    have hp1 : p.1 ∉ ps.map Prod.fst := by
      simp only [List.map_cons, List.nodup_cons] at hnd
      exact hnd.1
    rw [ih (acc ++ [(p.1, g p)]) ?_ hnd']
    · simp
    · intro q hq
      rw [List.map_append, List.mem_append]
      push_neg
      refine ⟨hfresh q (by simp [hq]), ?_⟩
      simp only [List.map_cons, List.map_nil, List.mem_singleton]
      intro hqe
      have hmm : q.1 ∈ ps.map Prod.fst := List.mem_map.2 ⟨q, hq, rfl⟩
      rw [hqe] at hmm
      exact hp1 hmm

theorem rowOfFields_map_lookup (repo_list : List String) (f : String → String) (k : String) :
    dictLookup (rowOfFields repo_list (repo_list.map f)) k
      = if k ∈ repo_list then some (Value.str (f k)) else none := by
  rw [rowOfFields]
  have hz : repo_list.zip (repo_list.map f) = repo_list.map fun r => (r, f r) := by
    have := List.zip_map' (fun r : String => r) f repo_list
    simpa using this
  rw [hz, List.foldl_map, dictLookup_foldl_insert (fun r => Value.str (f r))]
  simp [dictLookup]

/-- Claim C3, counterexample: a table holding the Python int 5 serializes to
the text field "5", which deserializes back as the Python string "5"; the
round-tripped table differs from the original under Python == (5 is not equal
to "5"). -/
theorem roundtrip_int_value_cex :
    write_table [(1, [("A", Value.int 5)])] ["A"] = some [["date", "A"], ["1", "5"]] ∧
    read_table [["date", "A"], ["1", "5"]] = .ok [(1, [("A", Value.str "5")])] ∧
    ¬ tableDictEq [(1, [("A", Value.str "5")])] [(1, [("A", Value.int 5)])] := by
  refine ⟨by decide, rfl, ?_⟩
  intro hEq
  have h := hEq.2 1 [("A", Value.str "5")] [("A", Value.int 5)] (by decide) (by decide) "A"
  exact absurd h (by decide)

/-- Claim C3 (amended): the serialize/deserialize round-trip restores the
table up to Python dict equality for tables whose values are Python strings
(in particular any table produced by read_table itself) and whose row keys on
every date are exactly the repository list; a table holding ints comes back
with string values instead (see the counterexample). -/
theorem roundtrip_string_tables (data : Table) (repo_list : List String)
    (hnd : (data.map Prod.fst).Nodup)
    (hkeys : ∀ p ∈ data, ∀ r, (dictLookup p.2 r).isSome = true ↔ r ∈ repo_list)
    (hstr : ∀ p ∈ data, ∀ q ∈ p.2, ∃ s, q.2 = Value.str s) :
    ∃ out parsed, write_table data repo_list = some out ∧
      read_table out = .ok parsed ∧ tableDictEq parsed data := by
  have hpres : ∀ p ∈ data, ∀ r ∈ repo_list, (dictLookup p.2 r).isSome = true :=
    fun p hp r hr => (hkeys p hp r).2 hr
  -- the serialized lines
  refine ⟨("date" :: repo_list) ::
      data.map (fun p =>
        dateToStr p.1 :: repo_list.map fun r => ((dictLookup p.2 r).getD NAval).render),
    data.map (fun p =>
      (p.1, rowOfFields repo_list
        (repo_list.map fun r => ((dictLookup p.2 r).getD NAval).render))), ?_, ?_, ?_⟩
  · rw [write_table, renderRows_eq repo_list data hpres]
    rfl
  · rw [read_table]
    show readRows repo_list [] _ = _
    rw [readRows_ok repo_list _ [] ?_]
    · rw [List.foldl_map]
      have hext : ∀ (acc : Table) (p : Nat × Row), p ∈ data →
          (fun (acc : Table) f =>
            match f with
            | [] => acc
            | d :: vals =>
              dictInsert acc ((parseDate d).getD 0) (rowOfFields repo_list vals)) acc
            (dateToStr p.1 ::
              repo_list.map fun r => ((dictLookup p.2 r).getD NAval).render)
          = dictInsert acc p.1
              (rowOfFields repo_list
                (repo_list.map fun r => ((dictLookup p.2 r).getD NAval).render)) := by
        intro acc p _
        show dictInsert acc ((parseDate (dateToStr p.1)).getD 0) _ = _
        rw [dateToStr, parseDate_repr]
        rfl
      rw [List.foldl_ext _ _ [] hext,
        foldl_dictInsert_fresh data _ [] (by simp) hnd]
      rfl
    · intro f hf
      obtain ⟨p, hp, hpe⟩ := List.mem_map.1 hf
      exact ⟨dateToStr p.1, p.1,
        repo_list.map fun r => ((dictLookup p.2 r).getD NAval).render,
        hpe.symm, by rw [dateToStr, parseDate_repr], by simp⟩
  · constructor
    · intro d
      rw [dictLookup_map_value data
        (fun row => rowOfFields repo_list
          (repo_list.map fun r => ((dictLookup row r).getD NAval).render)) d]
      cases dictLookup data d <;> rfl
    · intro d r₁ r₂ h1 h2 k
      rw [dictLookup_map_value data
        (fun row => rowOfFields repo_list
          (repo_list.map fun r => ((dictLookup row r).getD NAval).render)) d] at h1
      rw [h2] at h1
      have hr₁ : r₁ = rowOfFields repo_list
          (repo_list.map fun r => ((dictLookup r₂ r).getD NAval).render) := by
        simpa using h1.symm
      subst hr₁
      rw [rowOfFields_map_lookup]
      have hmem : (d, r₂) ∈ data := dictLookup_some_mem data d r₂ h2
      by_cases hk : k ∈ repo_list
      · rw [if_pos hk]
        obtain ⟨v, hv⟩ := Option.isSome_iff_exists.1 ((hkeys (d, r₂) hmem k).2 hk)
        obtain ⟨s, hs⟩ := hstr (d, r₂) hmem (k, v) (dictLookup_some_mem r₂ k v hv)
        rw [hv]
        simp only at hs
        rw [hs]
        rfl
      · rw [if_neg hk]
        cases hl : dictLookup r₂ k with
        | none => rfl
        | some v =>
          have : k ∈ repo_list := (hkeys (d, r₂) hmem k).1 (by rw [hl]; rfl)
          exact absurd this hk

/-- Claim C3, witness: the round-trip on a one-row table whose single value is
the Python string "5". -/
theorem roundtrip_string_tables_witness :
    ((([(1, [("A", Value.str "5")])] : Table).map Prod.fst).Nodup ∧
     (∀ p ∈ ([(1, [("A", Value.str "5")])] : Table), ∀ r,
       (dictLookup p.2 r).isSome = true ↔ r ∈ ["A"]) ∧
     (∀ p ∈ ([(1, [("A", Value.str "5")])] : Table), ∀ q ∈ p.2, ∃ s,
       q.2 = Value.str s)) ∧
    ∃ out parsed, write_table [(1, [("A", Value.str "5")])] ["A"] = some out ∧
      read_table out = .ok parsed ∧
      tableDictEq parsed [(1, [("A", Value.str "5")])] := by
  have hkeys : ∀ p ∈ ([(1, [("A", Value.str "5")])] : Table), ∀ r,
      (dictLookup p.2 r).isSome = true ↔ r ∈ ["A"] := by
    intro p hp r
    rw [List.mem_singleton] at hp
    subst hp
    show (dictLookup [("A", Value.str "5")] r).isSome = true ↔ r ∈ ["A"]
    rw [dictLookup]
    by_cases h : ("A" : String) = r
    · rw [if_pos h]
      simp [← h]
    · rw [if_neg h]
      simp only [List.mem_singleton]
      constructor
      · intro hfalse
        simp [dictLookup] at hfalse
      · intro hr
        exact absurd hr.symm h
  have hstr : ∀ p ∈ ([(1, [("A", Value.str "5")])] : Table), ∀ q ∈ p.2, ∃ s,
      q.2 = Value.str s := by
    intro p hp q hq
    rw [List.mem_singleton] at hp
    subst hp
    simp only [List.mem_singleton] at hq
    subst hq
    exact ⟨"5", rfl⟩
  exact ⟨⟨by decide, hkeys, hstr⟩,
    roundtrip_string_tables [(1, [("A", Value.str "5")])] ["A"] (by decide) hkeys hstr⟩

/-! ## Claim C5 -/

/-- Claim C5, counterexample: with a referrers file requested, a single
repository whose fetch came back empty (best-effort failure), and no existing
log, the appended snapshot's data contains that repository with an empty entry
list — the snapshot is not built only from repositories with non-empty
entries, and an all-empty snapshot is appended. -/
theorem snapshot_empty_entries_cex :
    appendReferrersSnapshot true false ["A"] (fun _ => []) [] 7
      = [⟨7, [("A", [])]⟩] ∧
    dictLookup (([("A", [])]) : List (String × List RefEntry)) "A" = some [] :=
  ⟨rfl, rfl⟩

/-- Claim C5 (amended): when the referrers file is requested and the
repository list is non-empty, exactly one snapshot is appended to the loaded
log, and its data maps every repository of the list to its fetched entry list,
whether empty or not; no snapshot is appended when the referrers file is not
requested or the repository list is empty (the only sense in which no empty
snapshot is written). -/
theorem snapshot_append_all_repos :
    (∀ (pathsRequested : Bool) (repo_list : List String)
      (fetchRef : String → List RefEntry) (log : List Snapshot) (now : Nat),
      repo_list ≠ [] →
      appendReferrersSnapshot true pathsRequested repo_list fetchRef log now
        = log ++ [⟨now, buildReferrersData true pathsRequested repo_list fetchRef⟩] ∧
      (∀ r ∈ repo_list,
        dictLookup (buildReferrersData true pathsRequested repo_list fetchRef) r
          = some (fetchRef r))) ∧
    (∀ (pathsRequested : Bool) (repo_list : List String)
      (fetchRef : String → List RefEntry) (log : List Snapshot) (now : Nat),
      appendReferrersSnapshot false pathsRequested repo_list fetchRef log now = log) ∧
    (∀ (refRequested pathsRequested : Bool) (fetchRef : String → List RefEntry)
      (log : List Snapshot) (now : Nat),
      appendReferrersSnapshot refRequested pathsRequested [] fetchRef log now = log) := by
  have hbuild : ∀ (pathsRequested : Bool) (repo_list : List String)
      (fetchRef : String → List RefEntry) (r : String),
      dictLookup (buildReferrersData true pathsRequested repo_list fetchRef) r
        = if r ∈ repo_list then some (fetchRef r) else none := by
    intro pathsRequested repo_list fetchRef r
    rw [buildReferrersData]
    have : (repo_list.foldl
        (fun d x => if true || pathsRequested then dictInsert d x (fetchRef x) else d) [])
        = repo_list.foldl (fun d x => dictInsert d x (fetchRef x)) [] := by
      simp
    rw [this, dictLookup_foldl_insert fetchRef]
    simp [dictLookup]
  refine ⟨?_, ?_, ?_⟩
  · intro pathsRequested repo_list fetchRef log now hne
    have hlook : ∀ r ∈ repo_list,
        dictLookup (buildReferrersData true pathsRequested repo_list fetchRef) r
          = some (fetchRef r) := by
      intro r hr
      rw [hbuild, if_pos hr]
    refine ⟨?_, hlook⟩
    obtain ⟨r, hr⟩ := List.exists_mem_of_ne_nil repo_list hne
    have hsome := hlook r hr
    have hdata : buildReferrersData true pathsRequested repo_list fetchRef ≠ [] := by
      intro hd
      rw [hd] at hsome
      simp [dictLookup] at hsome
    have hie : (buildReferrersData true pathsRequested repo_list fetchRef).isEmpty
        = false := by
      cases hb : buildReferrersData true pathsRequested repo_list fetchRef with
      | nil => exact absurd hb hdata
      | cons q qs => rfl
    rw [appendReferrersSnapshot, hie]
    rfl
  · intro pathsRequested repo_list fetchRef log now
    rw [appendReferrersSnapshot]
    rfl
  · intro refRequested pathsRequested fetchRef log now
    rw [appendReferrersSnapshot]
    have : buildReferrersData refRequested pathsRequested [] fetchRef = [] := rfl
    rw [this]
    cases refRequested <;> rfl

/-- Claim C5, witness: the amended statement on one repository whose fetched
entry list is empty and an absent log. -/
theorem snapshot_append_all_repos_witness :
    ((["A"] : List String) ≠ []) ∧
    (appendReferrersSnapshot true false ["A"] (fun _ => []) [] 7
      = [] ++ [⟨7, buildReferrersData true false ["A"] (fun _ => [])⟩] ∧
     ∀ r ∈ (["A"] : List String),
       dictLookup (buildReferrersData true false ["A"] (fun _ => [])) r = some []) :=
  ⟨by decide, snapshot_append_all_repos.1 false ["A"] (fun _ => []) [] 7 (by decide)⟩

/-! ## Claim C7 -/

/-- Claim C7, counterexample: in best-effort mode, when the views call
succeeds and only the clones call fails, get_metrics returns with the view
mappings filled, not with all four mappings empty. -/
theorem get_metrics_partial_data_cex :
    get_metrics (.ok ()) (.ok [⟨1, 2, 3⟩]) (.error "down") false
      = .ok ⟨[(1, 2)], [(1, 3)], [], []⟩ ∧
    ([(1, 2)] : List (Nat × Nat)) ≠ [] :=
  ⟨rfl, by decide⟩

/-- Claim C7 (amended): in best-effort mode get_metrics swallows failures of
the two traffic calls — all four mappings are empty exactly when the views
call fails (the clones call is then never attempted); if only the clones call
fails the already-filled view mappings are kept with empty clone mappings —
but a failure of the initial repository lookup is raised even in best-effort
mode, and strict mode re-raises every failure. -/
theorem get_metrics_best_effort :
    (∀ (e : String) (viewsRes clonesRes : Except String (List TrafficItem)) (b : Bool),
      get_metrics (.error e) viewsRes clonesRes b = .error e) ∧
    (∀ (e : String) (clonesRes : Except String (List TrafficItem)),
      get_metrics (.ok ()) (.error e) clonesRes false = .ok emptyMetrics) ∧
    (∀ (vs : List TrafficItem) (e : String),
      get_metrics (.ok ()) (.ok vs) (.error e) false
        = .ok (fillViews emptyMetrics vs)) ∧
    (∀ (vs cs : List TrafficItem),
      get_metrics (.ok ()) (.ok vs) (.ok cs) false
        = .ok (fillClones (fillViews emptyMetrics vs) cs)) ∧
    (∀ (e : String) (clonesRes : Except String (List TrafficItem)),
      get_metrics (.ok ()) (.error e) clonesRes true = .error e) ∧
    (∀ (vs : List TrafficItem) (e : String),
      get_metrics (.ok ()) (.ok vs) (.error e) true = .error e) :=
  ⟨fun _ _ _ _ => rfl, fun _ _ => rfl, fun _ _ => rfl, fun _ _ => rfl,
    fun _ _ => rfl, fun _ _ => rfl⟩

/-! ## Claim C8 -/

/-- Claim C8: when every fetch of a run observes no dates at all (all four
per-date mappings empty for every repository), the module-level range
computation min(all_dates)/max(all_dates) raises a ValueError, so the run
fails before any merged table is produced or written. -/
theorem empty_fetch_aborts (pre_vc pre_vu pre_cc pre_cu : Table)
    (repo_list : List String) (raw : List (String × Metrics))
    (h : ∀ p ∈ raw, metricsDates p.2 = []) :
    orchestrate pre_vc pre_vu pre_cc pre_cu repo_list raw
      = .error OrchErr.valueError := by
  have hdates : allDates raw = [] := by
    rw [allDates]
    induction raw with
    | nil => rfl
    | cons p ps ih =>
      rw [List.map_cons, List.flatten_cons, h p (by simp),
        ih fun q hq => h q (by simp [hq])]
      rfl
  have hcr : computeRange raw = .error OrchErr.valueError := by
    rw [computeRange, hdates]
  rw [orchestrate, hcr]
  rfl

/-- Claim C8, witness: a run with one repository whose four mappings are all
empty aborts with the ValueError. -/
theorem empty_fetch_aborts_witness :
    (∀ p ∈ ([("A", emptyMetrics)] : List (String × Metrics)), metricsDates p.2 = []) ∧
    orchestrate [] [] [] [] ["A"] [("A", emptyMetrics)] = .error OrchErr.valueError :=
  ⟨by decide, empty_fetch_aborts [] [] [] [] ["A"] [("A", emptyMetrics)] (by decide)⟩

/-! ## Claim C10 -/

theorem list_set_getD {α : Type} (d : α) :
    ∀ (l : List α) (n : Nat), n < l.length → l.set n (l.getD n d) = l := by
  intro l
  induction l with
  | nil => intro n h; simp at h
  | cons x xs ih =>
    intro n h
    cases n with
    | zero => rfl
    | succ n =>
      show x :: xs.set n (xs.getD n d) = x :: xs
      rw [ih n (by simpa using h)]

theorem list_getD_set {α : Type} (d : α) :
    ∀ (l : List α) (n : Nat) (x : α), n < l.length → (l.set n x).getD n d = x := by
  intro l
  induction l with
  | nil => intro n x h; simp at h
  | cons y ys ih =>
    intro n x h
    cases n with
    | zero => rfl
    | succ n => exact ih n x (by simpa using h)

/-- A fold whose every step reads one heap slot and writes the transformed
object back to the same slot equals a single write of the pure fold. -/
theorem foldl_set_through_ref {γ : Type} (g : γ → Table → Table) :
    ∀ (l : List γ) (store : Store) (ref : Nat), ref < store.length →
    l.foldl (fun st a => st.set ref (g a (st.getD ref []))) store
      = store.set ref (l.foldl (fun t a => g a t) (store.getD ref [])) := by
  intro l
  induction l with
  | nil =>
    intro store ref href
    exact (list_set_getD [] store ref href).symm
  | cons a as ih =>
    intro store ref href
    rw [List.foldl_cons, List.foldl_cons,
      ih (store.set ref (g a (store.getD ref []))) ref (by simpa using href),
      list_getD_set [] store ref _ href, List.set_set]

theorem foldl_naStep_oob (repo_list : List String) :
    ∀ (k j : Nat) (t : Table), t.length ≤ j →
    (List.range' j k).foldl (fun t i => naStep repo_list t i) t = t := by
  intro k
  induction k with
  | zero => intro j t _; rfl
  | succ k ih =>
    intro j t hj
    rw [List.range'_succ, List.foldl_cons]
    have hget : t.get? j = none := List.get?_eq_none.2 hj
    have hstep : naStep repo_list t j = t := by rw [naStep, hget]
    rw [hstep]
    exact ih (j + 1) t (by omega)

theorem foldl_naStep_range' (repo_list : List String) :
    ∀ (k j : Nat) (t : Table),
    (List.range' j k).foldl (fun t i => naStep repo_list t i) t
      = t.take j ++ ((t.drop j).take k).map (fun p => (p.1, addNA repo_list p.2))
          ++ (t.drop j).drop k := by
  intro k
  induction k with
  | zero =>
    intro j t
    simp [List.take_append_drop]
  | succ k ih =>
    intro j t
    by_cases hj : j < t.length
    · rw [List.range'_succ, List.foldl_cons]
      have hget : t.get? j = some (t.get ⟨j, hj⟩) := List.get?_eq_get hj
      have hstep : naStep repo_list t j
          = t.set j ((t.get ⟨j, hj⟩).1, addNA repo_list (t.get ⟨j, hj⟩).2) := by
        rw [naStep, hget]
      have hset : t.set j ((t.get ⟨j, hj⟩).1, addNA repo_list (t.get ⟨j, hj⟩).2)
          = t.take j ++ ((t.get ⟨j, hj⟩).1, addNA repo_list (t.get ⟨j, hj⟩).2)
              :: t.drop (j + 1) :=
        List.set_eq_take_cons_drop _ hj
      have hlen : (t.take j).length = j := by
        rw [List.length_take]
        omega
      have h1 : (t.set j ((t.get ⟨j, hj⟩).1, addNA repo_list (t.get ⟨j, hj⟩).2)).take (j + 1)
          = t.take j ++ [((t.get ⟨j, hj⟩).1, addNA repo_list (t.get ⟨j, hj⟩).2)] := by
        rw [hset, List.take_append_eq_append_take, hlen,
          List.take_all_of_le (by rw [hlen]; omega)]
        have he : j + 1 - j = 1 := by omega
        rw [he]
        rfl
      have h2 : (t.set j ((t.get ⟨j, hj⟩).1, addNA repo_list (t.get ⟨j, hj⟩).2)).drop (j + 1)
          = t.drop (j + 1) := by
        rw [hset, List.drop_append_eq_append_drop, hlen,
          List.drop_eq_nil_of_le (by rw [hlen]; omega)]
        have he : j + 1 - j = 1 := by omega
        rw [he]
        rfl
      have h3 : t.drop j = t.get ⟨j, hj⟩ :: t.drop (j + 1) := by
        rw [List.drop_eq_getElem_cons hj]
        rfl
      rw [hstep, ih (j + 1), h1, h2, h3, List.take_succ_cons, List.map_cons,
        List.drop_succ_cons]
      simp
    · have hj' : t.length ≤ j := by omega
      rw [foldl_naStep_oob repo_list (k + 1) j t hj',
        List.take_all_of_le (by omega), List.drop_eq_nil_of_le (by omega)]
      simp

theorem foldl_naStep_range (repo_list : List String) (t : Table) :
    (List.range t.length).foldl (fun t i => naStep repo_list t i) t
      = t.map fun p => (p.1, addNA repo_list p.2) := by
  rw [List.range_eq_range', foldl_naStep_range' repo_list t.length 0 t]
  simp

theorem naLoopImpl_eq (repo_list : List String) (ref : Nat) (store : Store)
    (href : ref < store.length) :
    naLoopImpl repo_list ref store
      = store.set ref
          ((store.getD ref []).map fun p => (p.1, addNA repo_list p.2)) := by
  rw [naLoopImpl]
  have h := foldl_set_through_ref (fun (i : Nat) (t : Table) => naStep repo_list t i)
    (List.range (store.getD ref []).length) store ref href
  rw [h, foldl_naStep_range]

theorem dateLoopImpl_eq (repo_list : List String) (min_date max_date : Nat) (ref : Nat)
    (store : Store) (href : ref < store.length) :
    dateLoopImpl repo_list min_date max_date ref store
      = store.set ref (dateLoop repo_list min_date max_date (store.getD ref [])) := by
  rw [dateLoopImpl]
  have h := foldl_set_through_ref (fun (c : Nat) (t : Table) => dateStep repo_list t c)
    (List.range' min_date (max_date + 1 - min_date)) store ref href
  rw [h, dateLoop]

/-- Claim C10: complement_data_structure mutates the dict passed as its data
argument in place and returns that same object: on the heap model, the call
with reference ref returns ref itself, and the heap afterwards is the old heap
with exactly the slot ref overwritten by the pure gap-fill result — so the
caller's table equals the returned table (it has gained the "NA" entries and
the zero-filled rows), and no other object is touched. -/
theorem fill_updates_in_place (min_date max_date : Nat) (repo_list : List String)
    (ref : Nat) (store : Store) (href : ref < store.length)
    (hne : store.getD ref [] ≠ []) :
    complementImpl min_date max_date repo_list ref store
      = (store.set ref
          (complement_data_structure min_date max_date repo_list (store.getD ref [])),
         ref) := by
  have hlen : 0 < (store.getD ref []).length := List.length_pos.2 hne
  rw [complementImpl]
  show (if 0 < (store.getD ref []).length then _ else _) = _
  rw [if_pos hlen, naLoopImpl_eq repo_list ref store href,
    dateLoopImpl_eq repo_list _ _ ref _ (by simpa using href),
    list_getD_set [] store ref _ href, List.set_set]
  rw [complement_data_structure, if_pos hlen]

/-- Claim C10, witness: the in-place update on a heap of two dict objects,
filling the non-empty table in slot 0. -/
theorem fill_updates_in_place_witness :
    (0 : Nat) < ([[(5, [("B", Value.int 2)])], []] : Store).length ∧
    (([[(5, [("B", Value.int 2)])], []] : Store).getD 0 [] ≠ []) ∧
    complementImpl 1 3 ["A"] 0 [[(5, [("B", Value.int 2)])], []]
      = (([[(5, [("B", Value.int 2)])], []] : Store).set 0
          (complement_data_structure 1 3 ["A"]
            (([[(5, [("B", Value.int 2)])], []] : Store).getD 0 [])),
         0) :=
  ⟨by decide, by decide,
    fill_updates_in_place 1 3 ["A"] 0 [[(5, [("B", Value.int 2)])], []]
      (by decide) (by decide)⟩
